import Mathlib

/-!
Verification of the range-tracking log cache.

The development shallowly embeds the TypeScript sources:
* `src/unnamed/part_000` (`util.ts`): the pure range algebra
  (`subtractRanges`, `mergeRanges`), block-tag resolution and the
  finalized-block lookup;
* `src/src/cli.ts` (`index.ts`, class `LogCache`): the paginated fetch loop
  (`fetchLogs`), the store operations over the `logs` / `fetched_ranges`
  tables, and the cache pipeline (`fetchLogsToCache`, `readLogsFromCache`,
  `getLogs`).

JavaScript numbers standing for block heights are modelled as `Int`.
The SQLite store is modelled as explicit row lists with the operations the
code performs (`INSERT OR IGNORE` keyed inserts, `SELECT ... ORDER BY`
modelled as a stable merge sort of the filtered rows, `DELETE`+re-insert).
The RPC provider is an explicitly passed structure carrying the ordered
event list matching the (fixed) filter plus the resolutions of the symbolic
block tags.  Fallible code returns `Except` / `Option`; the store failure
model for transaction atomicity is a caller-supplied failure oracle.
-/

/-! ## Range algebra (util.ts) -/

/-- A closed inclusive block interval, `BlockRange` from `util.ts`. -/
structure BlockRange where
  fromBlock : Int
  toBlock : Int
deriving DecidableEq, Repr

/-- The data-model invariant `fromBlock ≤ toBlock`. -/
def BlockRange.valid (r : BlockRange) : Prop := r.fromBlock ≤ r.toBlock

instance (r : BlockRange) : Decidable r.valid := by
  unfold BlockRange.valid; infer_instance

/-- Block `n` lies in the closed interval `r`. -/
def inRange (n : Int) (r : BlockRange) : Prop :=
  r.fromBlock ≤ n ∧ n ≤ r.toBlock

instance (n : Int) (r : BlockRange) : Decidable (inRange n r) := by
  unfold inRange; infer_instance

/-- Block `n` lies in some interval of the list `rs`. -/
def coveredBy (rs : List BlockRange) (n : Int) : Prop :=
  ∃ r ∈ rs, inRange n r

/-- One step of the inner loop of `subtractRanges`: the fragments of `z`
that survive removing `x` (zero, one or two intervals, pushed in the order
of the source). -/
def subOne (x z : BlockRange) : List BlockRange :=
  if x.toBlock < z.fromBlock ∨ x.fromBlock > z.toBlock then
    [z]
  else
    (if x.fromBlock > z.fromBlock then
      [⟨z.fromBlock, x.fromBlock - 1⟩] else []) ++
    (if x.toBlock < z.toBlock then
      [⟨x.toBlock + 1, z.toBlock⟩] else [])

/-- `subtractRanges` from `util.ts`: fold over `have`, replacing every
remaining fragment by its `subOne` pieces. -/
def subtractRanges (want : BlockRange) (hv : List BlockRange) : List BlockRange :=
  hv.foldl (fun z x => z.flatMap (subOne x)) [want]

/-- The sweep of `mergeRanges`: coalesce `cur` with the next range whenever
it overlaps or is adjacent (`next.fromBlock ≤ cur.toBlock + 1`). -/
def mergeGo (cur : BlockRange) : List BlockRange → List BlockRange
  | [] => [cur]
  | next :: rest =>
    if next.fromBlock ≤ cur.toBlock + 1 then
      mergeGo ⟨cur.fromBlock, max cur.toBlock next.toBlock⟩ rest
    else
      cur :: mergeGo next rest

/-- The comparator of `mergeRanges` (`(a, b) => a.fromBlock - b.fromBlock`)
as `≤` on `fromBlock`; the JavaScript sort is stable, matching the stable
`List.insertionSort`. -/
def fromLeP (a b : BlockRange) : Prop := a.fromBlock ≤ b.fromBlock

instance : DecidableRel fromLeP := fun a b => by
  unfold fromLeP; infer_instance

instance : IsTotal BlockRange fromLeP :=
  ⟨fun a b => le_total a.fromBlock b.fromBlock⟩

instance : IsTrans BlockRange fromLeP :=
  ⟨fun _ _ _ h₁ h₂ => le_trans h₁ h₂⟩

/-- `mergeRanges` from `util.ts`: lists of length ≤ 1 are returned
unchanged; otherwise sort by `fromBlock` and sweep. -/
def mergeRanges (rs : List BlockRange) : List BlockRange :=
  if rs.length ≤ 1 then rs
  else
    match rs.insertionSort fromLeP with
    | [] => []
    | c :: rest => mergeGo c rest

/-! ### Pointwise characterization of `subtractRanges` -/

theorem coveredBy_nil_iff (n : Int) : coveredBy [] n ↔ False := by
  constructor
  · rintro ⟨r, hr, -⟩; exact absurd hr (List.not_mem_nil r)
  · exact False.elim

theorem coveredBy_nil (n : Int) : ¬ coveredBy [] n :=
  (coveredBy_nil_iff n).1

theorem coveredBy_cons {r : BlockRange} {rs : List BlockRange} {n : Int} :
    coveredBy (r :: rs) n ↔ inRange n r ∨ coveredBy rs n := by
  constructor
  · rintro ⟨s, hs, hn⟩
    rcases List.mem_cons.1 hs with h | h
    · exact Or.inl (h ▸ hn)
    · exact Or.inr ⟨s, h, hn⟩
  · rintro (h | ⟨s, hs, hn⟩)
    · exact ⟨r, List.mem_cons_self r rs, h⟩
    · exact ⟨s, List.mem_cons_of_mem r hs, hn⟩

theorem coveredBy_append {l₁ l₂ : List BlockRange} {n : Int} :
    coveredBy (l₁ ++ l₂) n ↔ coveredBy l₁ n ∨ coveredBy l₂ n := by
  induction l₁ with
  | nil => simp [coveredBy_cons, coveredBy]
  | cons r rs ih =>
    simp only [List.cons_append, coveredBy_cons, ih, or_assoc]

theorem coveredBy_singleton {r : BlockRange} {n : Int} :
    coveredBy [r] n ↔ inRange n r := by
  rw [coveredBy_cons]
  simp [coveredBy]

/-- Removing `x` from a single fragment `z` keeps exactly the points of `z`
outside `x`. -/
theorem subOne_char (x z : BlockRange) (n : Int) :
    coveredBy (subOne x z) n ↔ inRange n z ∧ ¬ inRange n x := by
  unfold subOne
  split
  · rename_i h
    rw [coveredBy_singleton]
    unfold inRange at *
    constructor
    · intro hz; exact ⟨hz, by omega⟩
    · exact fun h => h.1
  · rename_i h
    push_neg at h
    by_cases h1 : x.fromBlock > z.fromBlock <;> by_cases h2 : x.toBlock < z.toBlock <;>
      simp only [h1, h2, if_pos, if_neg, List.nil_append, List.append_nil,
        not_lt, not_le, List.singleton_append, coveredBy_cons, coveredBy_singleton,
        coveredBy_nil_iff, false_iff, iff_false, or_false, if_true, if_false] <;>
      · simp only [inRange]
        omega

theorem flatMap_subOne_char (x : BlockRange) (z : List BlockRange) (n : Int) :
    coveredBy (z.flatMap (subOne x)) n ↔ coveredBy z n ∧ ¬ inRange n x := by
  induction z with
  | nil => simp only [List.flatMap_nil]; constructor
           · intro h; exact absurd h (coveredBy_nil n)
           · rintro ⟨h, -⟩; exact absurd h (coveredBy_nil n)
  | cons r rs ih =>
    rw [List.flatMap_cons, coveredBy_append, subOne_char, ih, coveredBy_cons]
    tauto

theorem foldl_subOne_char (hv : List BlockRange) (z : List BlockRange) (n : Int) :
    coveredBy (hv.foldl (fun z x => z.flatMap (subOne x)) z) n ↔
      coveredBy z n ∧ ∀ x ∈ hv, ¬ inRange n x := by
  induction hv generalizing z with
  | nil => simp
  | cons x xs ih =>
    rw [List.foldl_cons, ih, flatMap_subOne_char]
    constructor
    · rintro ⟨⟨hz, hx⟩, hxs⟩
      refine ⟨hz, ?_⟩
      intro y hy
      rcases List.mem_cons.1 hy with h | h
      · exact h ▸ hx
      · exact hxs y h
    · rintro ⟨hz, hall⟩
      exact ⟨⟨hz, hall x (List.mem_cons_self x xs)⟩,
        fun y hy => hall y (List.mem_cons_of_mem x hy)⟩

/-- `subtractRanges` covers exactly the points of `want` not covered by any
interval of `hv` (no hypotheses needed). -/
theorem subtractRanges_char (want : BlockRange) (hv : List BlockRange) (n : Int) :
    coveredBy (subtractRanges want hv) n ↔
      inRange n want ∧ ∀ x ∈ hv, ¬ inRange n x := by
  rw [subtractRanges, foldl_subOne_char, coveredBy_singleton]

/-! ### Validity, bounds and disjointness of `subtractRanges` -/

/-- Two intervals share no block. -/
def rangesDisjoint (a b : BlockRange) : Prop :=
  ∀ n : Int, ¬ (inRange n a ∧ inRange n b)

/-- Case analysis on membership in `subOne x z`. -/
theorem mem_subOne {x z r : BlockRange} (h : r ∈ subOne x z) :
    r = z ∨
    (r = ⟨z.fromBlock, x.fromBlock - 1⟩ ∧ z.fromBlock < x.fromBlock ∧
      x.fromBlock ≤ z.toBlock) ∨
    (r = ⟨x.toBlock + 1, z.toBlock⟩ ∧ x.toBlock < z.toBlock ∧
      z.fromBlock ≤ x.toBlock) := by
  unfold subOne at h
  split at h
  · rw [List.mem_singleton] at h; exact Or.inl h
  · rename_i hov
    push_neg at hov
    rcases List.mem_append.1 h with h | h
    · split at h
      · rw [List.mem_singleton] at h
        exact Or.inr (Or.inl ⟨h, by omega, hov.2⟩)
      · exact absurd h (List.not_mem_nil r)
    · split at h
      · rw [List.mem_singleton] at h
        exact Or.inr (Or.inr ⟨h, by omega, hov.1⟩)
      · exact absurd h (List.not_mem_nil r)

theorem subOne_valid {x z r : BlockRange} (hz : z.valid) (h : r ∈ subOne x z) :
    r.valid := by
  unfold BlockRange.valid at hz
  rcases mem_subOne h with h | ⟨h, h1, h2⟩ | ⟨h, h1, h2⟩ <;>
    (subst h; simp only [BlockRange.valid]; omega)

theorem subOne_bounds {x z r : BlockRange} (h : r ∈ subOne x z) :
    z.fromBlock ≤ r.fromBlock ∧ r.toBlock ≤ z.toBlock := by
  rcases mem_subOne h with h | ⟨h, h1, h2⟩ | ⟨h, h1, h2⟩
  · subst h; exact ⟨le_refl _, le_refl _⟩
  · subst h
    exact ⟨le_refl _, by show x.fromBlock - 1 ≤ z.toBlock; omega⟩
  · subst h
    exact ⟨by show z.fromBlock ≤ x.toBlock + 1; omega, le_refl _⟩

theorem subOne_sub {x z r : BlockRange} (h : r ∈ subOne x z) {n : Int}
    (hn : inRange n r) : inRange n z := by
  obtain ⟨h1, h2⟩ := subOne_bounds h
  unfold inRange at *
  omega

theorem subOne_pairwise {x z : BlockRange} (hx : x.valid) :
    (subOne x z).Pairwise rangesDisjoint := by
  unfold subOne
  split
  · exact List.pairwise_singleton _ _
  · split
    · split
      · rw [List.singleton_append, List.pairwise_cons]
        refine ⟨?_, List.pairwise_singleton _ _⟩
        intro b hb
        rw [List.mem_singleton] at hb
        subst hb
        intro n hn
        unfold inRange BlockRange.valid at *
        simp only [] at hn
        omega
      · rw [List.append_nil]
        exact List.pairwise_singleton _ _
    · rw [List.nil_append]
      split
      · exact List.pairwise_singleton _ _
      · exact List.Pairwise.nil

theorem flatMap_subOne_valid {x : BlockRange} {z : List BlockRange}
    (hz : ∀ r ∈ z, r.valid) : ∀ r ∈ z.flatMap (subOne x), r.valid := by
  intro r hr
  rw [List.mem_flatMap] at hr
  obtain ⟨z₀, hz₀, hmem⟩ := hr
  exact subOne_valid (hz z₀ hz₀) hmem

theorem flatMap_subOne_bounds {x : BlockRange} {z : List BlockRange} {lo hi : Int}
    (hz : ∀ r ∈ z, lo ≤ r.fromBlock ∧ r.toBlock ≤ hi) :
    ∀ r ∈ z.flatMap (subOne x), lo ≤ r.fromBlock ∧ r.toBlock ≤ hi := by
  intro r hr
  rw [List.mem_flatMap] at hr
  obtain ⟨z₀, hz₀, hmem⟩ := hr
  obtain ⟨h1, h2⟩ := subOne_bounds hmem
  obtain ⟨h3, h4⟩ := hz z₀ hz₀
  exact ⟨le_trans h3 h1, le_trans h2 h4⟩

theorem flatMap_subOne_pairwise {x : BlockRange} {z : List BlockRange}
    (hx : x.valid) (hz : z.Pairwise rangesDisjoint) :
    (z.flatMap (subOne x)).Pairwise rangesDisjoint := by
  rw [List.pairwise_flatMap]
  refine ⟨fun a _ => subOne_pairwise hx, ?_⟩
  refine hz.imp ?_
  intro a b hab
  intro u hu v hv n ⟨hnu, hnv⟩
  exact hab n ⟨subOne_sub hu hnu, subOne_sub hv hnv⟩

theorem subtractRanges_valid (want : BlockRange) (hv : List BlockRange)
    (hw : want.valid) : ∀ r ∈ subtractRanges want hv, r.valid := by
  unfold subtractRanges
  suffices h : ∀ (l : List BlockRange) (z : List BlockRange), (∀ r ∈ z, r.valid) →
      ∀ r ∈ l.foldl (fun z x => z.flatMap (subOne x)) z, r.valid by
    refine h hv [want] ?_
    intro r hr
    rw [List.mem_singleton] at hr
    exact hr ▸ hw
  intro l
  induction l with
  | nil => intro z hz; simpa using hz
  | cons x xs ih =>
    intro z hz
    rw [List.foldl_cons]
    exact ih _ (flatMap_subOne_valid hz)

theorem subtractRanges_bounds (want : BlockRange) (hv : List BlockRange) :
    ∀ r ∈ subtractRanges want hv,
      want.fromBlock ≤ r.fromBlock ∧ r.toBlock ≤ want.toBlock := by
  unfold subtractRanges
  suffices h : ∀ (l : List BlockRange) (z : List BlockRange),
      (∀ r ∈ z, want.fromBlock ≤ r.fromBlock ∧ r.toBlock ≤ want.toBlock) →
      ∀ r ∈ l.foldl (fun z x => z.flatMap (subOne x)) z,
        want.fromBlock ≤ r.fromBlock ∧ r.toBlock ≤ want.toBlock by
    refine h hv [want] ?_
    intro r hr
    rw [List.mem_singleton] at hr
    exact hr ▸ ⟨le_refl _, le_refl _⟩
  intro l
  induction l with
  | nil => intro z hz; simpa using hz
  | cons x xs ih =>
    intro z hz
    rw [List.foldl_cons]
    exact ih _ (flatMap_subOne_bounds hz)

theorem subtractRanges_pairwise (want : BlockRange) (hv : List BlockRange)
    (hh : ∀ x ∈ hv, x.valid) :
    (subtractRanges want hv).Pairwise rangesDisjoint := by
  unfold subtractRanges
  suffices h : ∀ (l : List BlockRange), (∀ x ∈ l, x.valid) →
      ∀ (z : List BlockRange), z.Pairwise rangesDisjoint →
      (l.foldl (fun z x => z.flatMap (subOne x)) z).Pairwise rangesDisjoint by
    exact h hv hh [want] (List.pairwise_singleton _ _)
  intro l
  induction l with
  | nil => intro _ z hz; simpa using hz
  | cons x xs ih =>
    intro hval z hz
    rw [List.foldl_cons]
    refine ih (fun y hy => hval y (List.mem_cons_of_mem x hy)) _
      (flatMap_subOne_pairwise (hval x (List.mem_cons_self x xs)) hz)

/-- C2: for a valid `want` and valid `have` list, `subtractRanges` covers
exactly the blocks of `want` not covered by `have`, every output interval is
valid (never degenerate), no output interval overlaps a `have` interval, and
the outputs are pairwise disjoint. -/
theorem subtractRanges_correct (want : BlockRange) (hv : List BlockRange)
    (hw : want.valid) (hh : ∀ x ∈ hv, x.valid) :
    (∀ n : Int, coveredBy (subtractRanges want hv) n ↔
      inRange n want ∧ ∀ x ∈ hv, ¬ inRange n x) ∧
    (∀ r ∈ subtractRanges want hv, r.valid) ∧
    (∀ r ∈ subtractRanges want hv, ∀ x ∈ hv, rangesDisjoint r x) ∧
    (subtractRanges want hv).Pairwise rangesDisjoint := by
  refine ⟨subtractRanges_char want hv, subtractRanges_valid want hv hw, ?_,
    subtractRanges_pairwise want hv hh⟩
  intro r hr x hx n ⟨hnr, hnx⟩
  have hc : coveredBy (subtractRanges want hv) n := ⟨r, hr, hnr⟩
  rw [subtractRanges_char] at hc
  exact hc.2 x hx hnx

/-- Witness for C2 at `want = [1,10]`, `have = [[3,4]]`. -/
theorem subtractRanges_correct_witness :
    (∀ n : Int, coveredBy (subtractRanges ⟨1, 10⟩ [⟨3, 4⟩]) n ↔
      inRange n ⟨1, 10⟩ ∧ ∀ x ∈ [(⟨3, 4⟩ : BlockRange)], ¬ inRange n x) ∧
    (∀ r ∈ subtractRanges ⟨1, 10⟩ [⟨3, 4⟩], r.valid) ∧
    (∀ r ∈ subtractRanges ⟨1, 10⟩ [⟨3, 4⟩], ∀ x ∈ [(⟨3, 4⟩ : BlockRange)],
      rangesDisjoint r x) ∧
    (subtractRanges ⟨1, 10⟩ [⟨3, 4⟩]).Pairwise rangesDisjoint :=
  subtractRanges_correct ⟨1, 10⟩ [⟨3, 4⟩] (by decide) (by decide)

/-- C8: the set of blocks produced by `subtractRanges` is invariant under
permuting the `have` list. -/
theorem subtractRanges_perm_invariant (want : BlockRange)
    (l₁ l₂ : List BlockRange) (hw : want.valid)
    (h₁ : ∀ x ∈ l₁, x.valid) (h₂ : ∀ x ∈ l₂, x.valid) (hp : l₁.Perm l₂) :
    ∀ n : Int, coveredBy (subtractRanges want l₁) n ↔
      coveredBy (subtractRanges want l₂) n := by
  intro n
  rw [subtractRanges_char, subtractRanges_char]
  constructor
  · rintro ⟨hw', hall⟩
    exact ⟨hw', fun x hx => hall x (hp.mem_iff.2 hx)⟩
  · rintro ⟨hw', hall⟩
    exact ⟨hw', fun x hx => hall x (hp.mem_iff.1 hx)⟩

/-- Witness for C8 at `want = [1,10]`, permuted lists `[[2,3],[6,7]]` and
`[[6,7],[2,3]]`, block `n = 5`. -/
theorem subtractRanges_perm_invariant_witness :
    coveredBy (subtractRanges ⟨1, 10⟩ [⟨2, 3⟩, ⟨6, 7⟩]) 5 ↔
      coveredBy (subtractRanges ⟨1, 10⟩ [⟨6, 7⟩, ⟨2, 3⟩]) 5 :=
  subtractRanges_perm_invariant ⟨1, 10⟩ [⟨2, 3⟩, ⟨6, 7⟩] [⟨6, 7⟩, ⟨2, 3⟩]
    (by decide) (by decide) (by decide) (List.Perm.swap _ _ _) 5

/-! ### `mergeRanges` -/

theorem inRange_mk {a b n : Int} : inRange n ⟨a, b⟩ ↔ a ≤ n ∧ n ≤ b := Iff.rfl

theorem valid_mk {a b : Int} : (⟨a, b⟩ : BlockRange).valid ↔ a ≤ b := Iff.rfl

/-- Disjoint and non-adjacent, in list order. -/
def nonAdjP (a b : BlockRange) : Prop := a.toBlock + 1 < b.fromBlock

theorem coveredBy_perm {l₁ l₂ : List BlockRange} (h : l₁.Perm l₂) (n : Int) :
    coveredBy l₁ n ↔ coveredBy l₂ n := by
  constructor <;> rintro ⟨r, hr, hn⟩
  · exact ⟨r, h.mem_iff.1 hr, hn⟩
  · exact ⟨r, h.mem_iff.2 hr, hn⟩

theorem mergeGo_from_le : ∀ (rest : List BlockRange) (cur : BlockRange),
    rest.Pairwise fromLeP → (∀ r ∈ rest, cur.fromBlock ≤ r.fromBlock) →
    ∀ o ∈ mergeGo cur rest, cur.fromBlock ≤ o.fromBlock := by
  intro rest
  induction rest with
  | nil =>
    intro cur _ _ o ho
    simp only [mergeGo, List.mem_singleton] at ho
    exact ho ▸ le_refl _
  | cons next rest ih =>
    intro cur hpw hcur o ho
    simp only [mergeGo] at ho
    split at ho
    · have hb : ∀ r ∈ rest,
          (⟨cur.fromBlock, max cur.toBlock next.toBlock⟩ : BlockRange).fromBlock ≤
            r.fromBlock := by
        intro r hr
        show cur.fromBlock ≤ r.fromBlock
        exact hcur r (List.mem_cons_of_mem next hr)
      exact ih _ (List.pairwise_cons.1 hpw).2 hb o ho
    · rcases List.mem_cons.1 ho with h | h
      · exact h ▸ le_refl _
      · exact le_trans (hcur next (List.mem_cons_self _ _))
          (ih next (List.pairwise_cons.1 hpw).2 (List.pairwise_cons.1 hpw).1 o h)

theorem mergeGo_pairwise : ∀ (rest : List BlockRange) (cur : BlockRange),
    rest.Pairwise fromLeP → (∀ r ∈ rest, cur.fromBlock ≤ r.fromBlock) →
    (mergeGo cur rest).Pairwise nonAdjP ∧ (mergeGo cur rest).Pairwise fromLeP := by
  intro rest
  induction rest with
  | nil =>
    intro cur _ _
    simp only [mergeGo]
    exact ⟨List.pairwise_singleton _ _, List.pairwise_singleton _ _⟩
  | cons next rest ih =>
    intro cur hpw hcur
    simp only [mergeGo]
    split
    · have hb : ∀ r ∈ rest,
          (⟨cur.fromBlock, max cur.toBlock next.toBlock⟩ : BlockRange).fromBlock ≤
            r.fromBlock := by
        intro r hr
        show cur.fromBlock ≤ r.fromBlock
        exact hcur r (List.mem_cons_of_mem next hr)
      exact ih _ (List.pairwise_cons.1 hpw).2 hb
    · rename_i hgap
      have htail := ih next (List.pairwise_cons.1 hpw).2 (List.pairwise_cons.1 hpw).1
      have hfr := mergeGo_from_le rest next (List.pairwise_cons.1 hpw).2
        (List.pairwise_cons.1 hpw).1
      constructor
      · rw [List.pairwise_cons]
        refine ⟨?_, htail.1⟩
        intro o ho
        have := hfr o ho
        unfold nonAdjP
        omega
      · rw [List.pairwise_cons]
        refine ⟨?_, htail.2⟩
        intro o ho
        have h1 := hcur next (List.mem_cons_self _ _)
        have h2 := hfr o ho
        unfold fromLeP
        omega

theorem mergeGo_coverage : ∀ (rest : List BlockRange) (cur : BlockRange),
    rest.Pairwise fromLeP → (∀ r ∈ rest, cur.fromBlock ≤ r.fromBlock) →
    ∀ n : Int, coveredBy (mergeGo cur rest) n ↔ inRange n cur ∨ coveredBy rest n := by
  intro rest
  induction rest with
  | nil =>
    intro cur _ _ n
    simp only [mergeGo, coveredBy_singleton, coveredBy_nil_iff, or_false]
  | cons next rest ih =>
    intro cur hpw hcur n
    simp only [mergeGo]
    split
    · rename_i hadj
      have hb : ∀ r ∈ rest,
          (⟨cur.fromBlock, max cur.toBlock next.toBlock⟩ : BlockRange).fromBlock ≤
            r.fromBlock := by
        intro r hr
        show cur.fromBlock ≤ r.fromBlock
        exact hcur r (List.mem_cons_of_mem next hr)
      rw [ih _ (List.pairwise_cons.1 hpw).2 hb n, coveredBy_cons]
      have hcn := hcur next (List.mem_cons_self _ _)
      have hmerge : inRange n ⟨cur.fromBlock, max cur.toBlock next.toBlock⟩ ↔
          inRange n cur ∨ inRange n next := by
        rw [inRange_mk]
        unfold inRange
        rcases le_total cur.toBlock next.toBlock with h | h
        · rw [max_eq_right h]; omega
        · rw [max_eq_left h]; omega
      rw [hmerge]
      tauto
    · rw [coveredBy_cons, coveredBy_cons,
        ih next (List.pairwise_cons.1 hpw).2 (List.pairwise_cons.1 hpw).1 n]

theorem mergeGo_valid : ∀ (rest : List BlockRange) (cur : BlockRange),
    cur.valid → (∀ r ∈ rest, r.valid) → ∀ o ∈ mergeGo cur rest, o.valid := by
  intro rest
  induction rest with
  | nil =>
    intro cur hv _ o ho
    simp only [mergeGo, List.mem_singleton] at ho
    exact ho ▸ hv
  | cons next rest ih =>
    intro cur hv hrest o ho
    simp only [mergeGo] at ho
    split at ho
    · refine ih _ ?_ (fun r hr => hrest r (List.mem_cons_of_mem next hr)) o ho
      rw [valid_mk]
      exact le_trans hv (le_max_left _ _)
    · rcases List.mem_cons.1 ho with h | h
      · exact h ▸ hv
      · exact ih next (hrest next (List.mem_cons_self _ _))
          (fun r hr => hrest r (List.mem_cons_of_mem next hr)) o h

theorem mergeGo_toBlock_le (B : Int) : ∀ (rest : List BlockRange) (cur : BlockRange),
    cur.toBlock ≤ B → (∀ r ∈ rest, r.toBlock ≤ B) →
    ∀ o ∈ mergeGo cur rest, o.toBlock ≤ B := by
  intro rest
  induction rest with
  | nil =>
    intro cur hv _ o ho
    simp only [mergeGo, List.mem_singleton] at ho
    exact ho ▸ hv
  | cons next rest ih =>
    intro cur hv hrest o ho
    simp only [mergeGo] at ho
    split at ho
    · refine ih _ ?_ (fun r hr => hrest r (List.mem_cons_of_mem next hr)) o ho
      show max cur.toBlock next.toBlock ≤ B
      exact max_le hv (hrest next (List.mem_cons_self _ _))
    · rcases List.mem_cons.1 ho with h | h
      · exact h ▸ hv
      · exact ih next (hrest next (List.mem_cons_self _ _))
          (fun r hr => hrest r (List.mem_cons_of_mem next hr)) o h

theorem mergeGo_eq_of_nonAdj : ∀ (rest : List BlockRange) (cur : BlockRange),
    (cur :: rest).Pairwise nonAdjP → mergeGo cur rest = cur :: rest := by
  intro rest
  induction rest with
  | nil => intro cur _; simp [mergeGo]
  | cons next rest ih =>
    intro cur hpw
    have h1 : nonAdjP cur next :=
      (List.pairwise_cons.1 hpw).1 next (List.mem_cons_self _ _)
    unfold nonAdjP at h1
    simp only [mergeGo]
    rw [if_neg (by omega)]
    rw [ih next (List.pairwise_cons.1 hpw).2]

/-- A valid interval whose points are all covered by a disjoint,
non-adjacent list lies inside a single member of the list. -/
theorem covered_interval_sub : ∀ (l : List BlockRange),
    (∀ o ∈ l, o.valid) → l.Pairwise nonAdjP →
    ∀ (r : BlockRange), r.valid → (∀ n : Int, inRange n r → coveredBy l n) →
    ∃ o ∈ l, ∀ n : Int, inRange n r → inRange n o := by
  intro l
  induction l with
  | nil =>
    intro _ _ r hr hcov
    exact absurd (hcov r.fromBlock ⟨le_refl _, hr⟩) (coveredBy_nil _)
  | cons o l ih =>
    intro hval hpw r hr hcov
    by_cases hfo : inRange r.fromBlock o
    · refine ⟨o, List.mem_cons_self _ _, ?_⟩
      by_cases hto : r.toBlock ≤ o.toBlock
      · intro n hn
        unfold inRange at *
        omega
      · exfalso
        push_neg at hto
        have hm : inRange (o.toBlock + 1) r := by
          unfold inRange BlockRange.valid at *
          omega
        obtain ⟨o', ho', hmo'⟩ := hcov _ hm
        rcases List.mem_cons.1 ho' with h | h
        · subst h; unfold inRange at hmo'; omega
        · have hgap := (List.pairwise_cons.1 hpw).1 o' h
          unfold nonAdjP at hgap
          unfold inRange at hmo'
          omega
    · have hro : ∀ n, inRange n r → ¬ inRange n o := by
        obtain ⟨o'', ho'', hfo''⟩ := hcov r.fromBlock ⟨le_refl _, hr⟩
        rcases List.mem_cons.1 ho'' with h | h
        · exact absurd (h ▸ hfo'') hfo
        · have hgap := (List.pairwise_cons.1 hpw).1 o'' h
          unfold nonAdjP at hgap
          unfold inRange at hfo'' ⊢
          intro n hn hno
          omega
      have hcov' : ∀ n, inRange n r → coveredBy l n := by
        intro n hn
        rcases coveredBy_cons.1 (hcov n hn) with h | h
        · exact absurd h (hro n hn)
        · exact h
      obtain ⟨o', ho', hsub⟩ := ih (fun x hx => hval x (List.mem_cons_of_mem o hx))
        (List.pairwise_cons.1 hpw).2 r hr hcov'
      exact ⟨o', List.mem_cons_of_mem o ho', hsub⟩

theorem insertionSort_pairwise_fromLe (rs : List BlockRange) :
    (rs.insertionSort fromLeP).Pairwise fromLeP :=
  List.sorted_insertionSort fromLeP rs

theorem mergeRanges_eq_mergeGo {rs : List BlockRange} {c : BlockRange}
    {rest : List BlockRange} (hlen : ¬ rs.length ≤ 1)
    (hms : rs.insertionSort fromLeP = c :: rest) :
    mergeRanges rs = mergeGo c rest := by
  rw [mergeRanges, if_neg hlen, hms]

theorem mergeRanges_pairwise (rs : List BlockRange) :
    (mergeRanges rs).Pairwise nonAdjP ∧ (mergeRanges rs).Pairwise fromLeP := by
  by_cases hlen : rs.length ≤ 1
  · rw [mergeRanges, if_pos hlen]
    rcases rs with _ | ⟨r, _ | ⟨s, rs⟩⟩
    · exact ⟨List.Pairwise.nil, List.Pairwise.nil⟩
    · exact ⟨List.pairwise_singleton _ _, List.pairwise_singleton _ _⟩
    · simp at hlen
  · have hne : rs.insertionSort fromLeP ≠ [] := by
      intro hx
      have hl : (rs.insertionSort fromLeP).length = 0 := by rw [hx]; rfl
      rw [List.length_insertionSort] at hl
      omega
    obtain ⟨c, rest, hms⟩ := List.exists_cons_of_ne_nil hne
    rw [mergeRanges_eq_mergeGo hlen hms]
    have hsort := insertionSort_pairwise_fromLe rs
    rw [hms] at hsort
    exact mergeGo_pairwise rest c (List.pairwise_cons.1 hsort).2
      (List.pairwise_cons.1 hsort).1

theorem mergeRanges_coverage (rs : List BlockRange) (n : Int) :
    coveredBy (mergeRanges rs) n ↔ coveredBy rs n := by
  by_cases hlen : rs.length ≤ 1
  · rw [mergeRanges, if_pos hlen]
  · have hne : rs.insertionSort fromLeP ≠ [] := by
      intro hx
      have hl : (rs.insertionSort fromLeP).length = 0 := by rw [hx]; rfl
      rw [List.length_insertionSort] at hl
      omega
    obtain ⟨c, rest, hms⟩ := List.exists_cons_of_ne_nil hne
    rw [mergeRanges_eq_mergeGo hlen hms]
    have hsort := insertionSort_pairwise_fromLe rs
    rw [hms] at hsort
    rw [mergeGo_coverage rest c (List.pairwise_cons.1 hsort).2
      (List.pairwise_cons.1 hsort).1 n, ← coveredBy_cons, ← hms]
    exact coveredBy_perm (List.perm_insertionSort fromLeP rs) n

theorem mergeRanges_valid (rs : List BlockRange) (h : ∀ r ∈ rs, r.valid) :
    ∀ o ∈ mergeRanges rs, o.valid := by
  by_cases hlen : rs.length ≤ 1
  · rw [mergeRanges, if_pos hlen]; exact h
  · have hne : rs.insertionSort fromLeP ≠ [] := by
      intro hx
      have hl : (rs.insertionSort fromLeP).length = 0 := by rw [hx]; rfl
      rw [List.length_insertionSort] at hl
      omega
    obtain ⟨c, rest, hms⟩ := List.exists_cons_of_ne_nil hne
    rw [mergeRanges_eq_mergeGo hlen hms]
    have hvs : ∀ r ∈ (c :: rest), r.valid := by
      intro r hr
      refine h r ?_
      rw [← hms] at hr
      exact (List.perm_insertionSort fromLeP rs).mem_iff.1 hr
    exact mergeGo_valid rest c (hvs c (List.mem_cons_self _ _))
      (fun r hr => hvs r (List.mem_cons_of_mem c hr))

theorem mergeRanges_toBlock_le (rs : List BlockRange) (B : Int)
    (h : ∀ r ∈ rs, r.toBlock ≤ B) : ∀ o ∈ mergeRanges rs, o.toBlock ≤ B := by
  by_cases hlen : rs.length ≤ 1
  · rw [mergeRanges, if_pos hlen]; exact h
  · have hne : rs.insertionSort fromLeP ≠ [] := by
      intro hx
      have hl : (rs.insertionSort fromLeP).length = 0 := by rw [hx]; rfl
      rw [List.length_insertionSort] at hl
      omega
    obtain ⟨c, rest, hms⟩ := List.exists_cons_of_ne_nil hne
    rw [mergeRanges_eq_mergeGo hlen hms]
    have hvs : ∀ r ∈ (c :: rest), r.toBlock ≤ B := by
      intro r hr
      refine h r ?_
      rw [← hms] at hr
      exact (List.perm_insertionSort fromLeP rs).mem_iff.1 hr
    exact mergeGo_toBlock_le B rest c (hvs c (List.mem_cons_self _ _))
      (fun r hr => hvs r (List.mem_cons_of_mem c hr))

/-- C3: for valid inputs, `mergeRanges` returns a sequence sorted ascending
by `fromBlock`, pairwise disjoint and non-adjacent, covering exactly the
same blocks, with valid intervals, returning length ≤ 1 inputs unchanged,
and coalescing any two overlapping-or-adjacent input intervals into a
single output interval. -/
theorem mergeRanges_correct (rs : List BlockRange) (hval : ∀ r ∈ rs, r.valid) :
    (rs.length ≤ 1 → mergeRanges rs = rs) ∧
    (mergeRanges rs).Pairwise nonAdjP ∧
    (mergeRanges rs).Pairwise fromLeP ∧
    (∀ n : Int, coveredBy (mergeRanges rs) n ↔ coveredBy rs n) ∧
    (∀ o ∈ mergeRanges rs, o.valid) ∧
    (∀ r₁ ∈ rs, ∀ r₂ ∈ rs, r₂.fromBlock ≤ r₁.toBlock + 1 →
      r₁.fromBlock ≤ r₂.toBlock + 1 →
      ∃ o ∈ mergeRanges rs, (∀ n : Int, inRange n r₁ → inRange n o) ∧
        (∀ n : Int, inRange n r₂ → inRange n o)) := by
  refine ⟨fun h => by rw [mergeRanges, if_pos h], (mergeRanges_pairwise rs).1,
    (mergeRanges_pairwise rs).2, mergeRanges_coverage rs,
    mergeRanges_valid rs hval, ?_⟩
  intro r₁ h₁ r₂ h₂ hadj₁ hadj₂
  have hv₁ := hval r₁ h₁
  have hv₂ := hval r₂ h₂
  set hull : BlockRange := ⟨min r₁.fromBlock r₂.fromBlock,
    max r₁.toBlock r₂.toBlock⟩ with hhull
  have hhv : hull.valid := by
    rw [hhull, valid_mk]
    unfold BlockRange.valid at hv₁ hv₂
    omega
  have hcov : ∀ n : Int, inRange n hull → coveredBy (mergeRanges rs) n := by
    intro n hn
    rw [mergeRanges_coverage rs]
    rw [hhull, inRange_mk] at hn
    have hn' : inRange n r₁ ∨ inRange n r₂ := by
      unfold inRange BlockRange.valid at *
      omega
    rcases hn' with h | h
    · exact ⟨r₁, h₁, h⟩
    · exact ⟨r₂, h₂, h⟩
  obtain ⟨o, ho, hsub⟩ := covered_interval_sub (mergeRanges rs)
    (mergeRanges_valid rs hval) (mergeRanges_pairwise rs).1 hull hhv hcov
  refine ⟨o, ho, ?_, ?_⟩
  · intro n hn
    refine hsub n ?_
    rw [hhull, inRange_mk]
    unfold inRange at hn
    omega
  · intro n hn
    refine hsub n ?_
    rw [hhull, inRange_mk]
    unfold inRange at hn
    omega

/-- Witness for C3 at `[[1,5],[6,10]]` (adjacent intervals). -/
theorem mergeRanges_correct_witness :
    (([⟨1, 5⟩, ⟨6, 10⟩] : List BlockRange).length ≤ 1 →
      mergeRanges [⟨1, 5⟩, ⟨6, 10⟩] = [⟨1, 5⟩, ⟨6, 10⟩]) ∧
    (mergeRanges [⟨1, 5⟩, ⟨6, 10⟩]).Pairwise nonAdjP ∧
    (mergeRanges [⟨1, 5⟩, ⟨6, 10⟩]).Pairwise fromLeP ∧
    (∀ n : Int, coveredBy (mergeRanges [⟨1, 5⟩, ⟨6, 10⟩]) n ↔
      coveredBy [⟨1, 5⟩, ⟨6, 10⟩] n) ∧
    (∀ o ∈ mergeRanges [⟨1, 5⟩, ⟨6, 10⟩], o.valid) ∧
    (∀ r₁ ∈ ([⟨1, 5⟩, ⟨6, 10⟩] : List BlockRange),
      ∀ r₂ ∈ ([⟨1, 5⟩, ⟨6, 10⟩] : List BlockRange),
      r₂.fromBlock ≤ r₁.toBlock + 1 → r₁.fromBlock ≤ r₂.toBlock + 1 →
      ∃ o ∈ mergeRanges [⟨1, 5⟩, ⟨6, 10⟩],
        (∀ n : Int, inRange n r₁ → inRange n o) ∧
        (∀ n : Int, inRange n r₂ → inRange n o)) :=
  mergeRanges_correct [⟨1, 5⟩, ⟨6, 10⟩] (by decide)

/-- C9: `mergeRanges` is idempotent on lists of valid ranges. -/
theorem mergeRanges_idempotent (rs : List BlockRange)
    (hval : ∀ r ∈ rs, r.valid) :
    mergeRanges (mergeRanges rs) = mergeRanges rs := by
  by_cases hlen : rs.length ≤ 1
  · have h1 : mergeRanges rs = rs := by rw [mergeRanges, if_pos hlen]
    rw [h1]
    exact h1
  · have hpw := mergeRanges_pairwise rs
    by_cases hy : (mergeRanges rs).length ≤ 1
    · rw [mergeRanges, if_pos hy]
    · have hms : (mergeRanges rs).insertionSort fromLeP = mergeRanges rs :=
        List.Sorted.insertionSort_eq hpw.2
      have hne : mergeRanges rs ≠ [] := by
        intro hx
        rw [hx] at hy
        simp at hy
      obtain ⟨c, rest, hcr⟩ := List.exists_cons_of_ne_nil hne
      rw [mergeRanges_eq_mergeGo hy (by rw [hms, hcr])]
      rw [hcr] at hpw
      exact (mergeGo_eq_of_nonAdj rest c hpw.1).trans hcr.symm

/-- Witness for C9 at `[[1,5],[3,7],[9,12]]`. -/
theorem mergeRanges_idempotent_witness :
    mergeRanges (mergeRanges [⟨1, 5⟩, ⟨3, 7⟩, ⟨9, 12⟩]) =
      mergeRanges [⟨1, 5⟩, ⟨3, 7⟩, ⟨9, 12⟩] :=
  mergeRanges_idempotent [⟨1, 5⟩, ⟨3, 7⟩, ⟨9, 12⟩] (by decide)

/-! ## Events, provider and block-tag resolution -/

/-- An `ethers.Log` as far as the cache observes it: `blockNumber`,
`index` (the log index) and an opaque payload (the JSON round trip
`JSON.parse ∘ JSON.stringify` is the identity on it). -/
structure Event where
  blockNumber : Int
  index : Int
  data : String
deriving DecidableEq, Repr

/-- An `ethers.BlockTag` as used by this code: a number or one of the
symbolic tags. -/
inductive BlockTag where
  | num (n : Int)
  | earliest
  | latest
  | finalized
deriving DecidableEq, Repr

/-- The RPC provider, restricted to one fixed (address, topics) filter:
`chain` is the full ordered list of events matching that filter, and the
three symbolic tags resolve via `getBlock` to the given numbers (`none`
models a provider returning no block). -/
structure Provider where
  chain : List Event
  earliestBlock : Option Int
  latestBlock : Option Int
  finalizedBlock : Option Int
deriving Repr

/-- The error conditions the embedded code can raise. -/
inductive Err where
  | invalidPageSize
  | invalidBlock
  | cannotGetFinalized
  | toBlockNotFinalized
  | storeFailure
deriving DecidableEq, Repr

/-- `provider.getBlock(tag)?.number` for a symbolic tag. -/
def getBlockNumber (p : Provider) : BlockTag → Option Int
  | .num n => some n
  | .earliest => p.earliestBlock
  | .latest => p.latestBlock
  | .finalized => p.finalizedBlock

/-- `tagToNumber` from `util.ts`: numbers pass through, tags resolve via
`getBlock`, a missing block raises `Invalid block`. -/
def tagToNumber (p : Provider) : BlockTag → Except Err Int
  | .num n => .ok n
  | t =>
    match getBlockNumber p t with
    | some n => .ok n
    | none => .error .invalidBlock

/-- JavaScript `tag || default`: both `undefined` and the number `0` are
falsy, so an explicit block bound `0` is replaced by the default tag. -/
def falsyOr (t : Option BlockTag) (d : BlockTag) : BlockTag :=
  match t with
  | none => d
  | some (.num 0) => d
  | some t => t

/-- An `ethers.Filter` as far as the cache observes it.  `fid` stands for
the deterministic `getFilterId` hash of (chainId, address, topics); it does
not depend on the block bounds, so spreading new bounds over a filter keeps
its identity. -/
structure ModelFilter where
  fromBlock : Option BlockTag
  toBlock : Option BlockTag
  fid : String
deriving DecidableEq, Repr

/-- `LogCache.toStrictFilter`: resolve `filter.fromBlock || 'earliest'` and
`filter.toBlock || defaultToBlock` to numbers. -/
def toStrictFilter (p : Provider) (flt : ModelFilter) (defaultToBlock : BlockTag) :
    Except Err (Int × Int) :=
  match tagToNumber p (falsyOr flt.fromBlock .earliest) with
  | .error e => .error e
  | .ok fromB =>
    match tagToNumber p (falsyOr flt.toBlock defaultToBlock) with
    | .error e => .error e
    | .ok toB => .ok (fromB, toB)

/-- `getFinalizedBlockNumber` from `util.ts`. -/
def getFinalizedBlockNumber (p : Provider) : Except Err Int :=
  match p.finalizedBlock with
  | some n => .ok n
  | none => .error .cannotGetFinalized

/-- `provider.getLogs` over `[a, b]` for the fixed filter: the events of the
chain whose block number lies in the range (the provider returns them
already ordered by block and index). -/
def chainFilter (p : Provider) (a b : Int) : List Event :=
  p.chain.filter fun e => decide (a ≤ e.blockNumber) && decide (e.blockNumber ≤ b)

/-- (block, index) lexicographic order on events. -/
def eventLe (a b : Event) : Prop :=
  a.blockNumber < b.blockNumber ∨
    (a.blockNumber = b.blockNumber ∧ a.index ≤ b.index)

/-- The provider's event list is ordered by (block, index). -/
def chainOrdered (p : Provider) : Prop := p.chain.Pairwise eventLe

/-! ## The store (`logs` and `fetched_ranges` tables) -/

/-- A row of the `logs` table. -/
structure LogRow where
  filterId : String
  blockNumber : Int
  logIndex : Int
  data : String
deriving DecidableEq, Repr

/-- A row of the `fetched_ranges` table. -/
structure RangeRow where
  filterId : String
  fromBlock : Int
  toBlock : Int
deriving DecidableEq, Repr

/-- The database: both tables, rows in insertion order. -/
structure Store where
  logs : List LogRow
  ranges : List RangeRow
deriving DecidableEq, Repr

def eventRow (fid : String) (e : Event) : LogRow :=
  ⟨fid, e.blockNumber, e.index, e.data⟩

def rowEvent (r : LogRow) : Event := ⟨r.blockNumber, r.logIndex, r.data⟩

def hasLogKey (l : List LogRow) (fid : String) (bn idx : Int) : Bool :=
  l.any fun r => r.filterId == fid && r.blockNumber == bn && r.logIndex == idx

/-- One `INSERT OR IGNORE INTO logs` (unique key
(filterId, blockNumber, logIndex)). -/
def insertLog (l : List LogRow) (fid : String) (e : Event) : List LogRow :=
  if hasLogKey l fid e.blockNumber e.index then l else l ++ [eventRow fid e]

/-- `LogCache._insertLogs`: insert each log of the batch in order. -/
def insertLogs (l : List LogRow) (fid : String) (batch : List Event) : List LogRow :=
  batch.foldl (fun acc e => insertLog acc fid e) l

/-- `ORDER BY blockNumber, logIndex`, as a relation on rows. -/
def logRowLe (a b : LogRow) : Prop :=
  a.blockNumber < b.blockNumber ∨
    (a.blockNumber = b.blockNumber ∧ a.logIndex ≤ b.logIndex)

instance : DecidableRel logRowLe := fun a b => by
  unfold logRowLe; infer_instance

instance : IsTotal LogRow logRowLe := ⟨fun a b => by unfold logRowLe; omega⟩

instance : IsTrans LogRow logRowLe := ⟨fun a b c h₁ h₂ => by
  unfold logRowLe at *; omega⟩

/-- `LogCache._selectLogs`: `SELECT ... WHERE filterId = ? AND
? <= blockNumber AND blockNumber <= ? ORDER BY blockNumber, logIndex`. -/
def selectLogs (st : Store) (fid : String) (fromB toB : Int) : List LogRow :=
  (st.logs.filter fun r =>
      r.filterId == fid && decide (fromB ≤ r.blockNumber) &&
        decide (r.blockNumber ≤ toB)).insertionSort logRowLe

/-- `LogCache._insertRange`: append one `fetched_ranges` row. -/
def insertRangeRow (st : Store) (fid : String) (f t : Int) : Store :=
  { st with ranges := st.ranges ++ [⟨fid, f, t⟩] }

/-- `ORDER BY fromBlock` on range rows. -/
def rangeRowLe (a b : RangeRow) : Prop := a.fromBlock ≤ b.fromBlock

instance : DecidableRel rangeRowLe := fun a b => by
  unfold rangeRowLe; infer_instance

instance : IsTotal RangeRow rangeRowLe := ⟨fun a b => by unfold rangeRowLe; omega⟩

instance : IsTrans RangeRow rangeRowLe := ⟨fun a b c h₁ h₂ => by
  unfold rangeRowLe at *; omega⟩

/-- `LogCache._selectRanges`: `SELECT fromBlock, toBlock FROM fetched_ranges
WHERE filterId = ? ORDER BY fromBlock`. -/
def selectRanges (st : Store) (fid : String) : List BlockRange :=
  ((st.ranges.filter fun r => r.filterId == fid).insertionSort rangeRowLe).map
    fun r => ⟨r.fromBlock, r.toBlock⟩

/-- `LogCache._replaceRanges`: delete all rows of the filter, then insert
the given ranges. -/
def replaceRanges (st : Store) (fid : String) (rs : List BlockRange) : Store :=
  { st with ranges := st.ranges.filter (fun r => !(r.filterId == fid)) ++
      rs.map fun r => ⟨fid, r.fromBlock, r.toBlock⟩ }

/-- `LogCache._getMissingRanges`. -/
def getMissingRanges (st : Store) (fid : String) (want : BlockRange) :
    List BlockRange :=
  subtractRanges want (selectRanges st fid)

/-- `LogCache._tidyUpRanges`: inside one transaction, read the filter's
ranges, skip when there are none, else replace them with their merge. -/
def tidyUpRanges (st : Store) (fid : String) : Store :=
  let rs := selectRanges st fid
  if rs.length = 0 then st
  else replaceRanges st fid (mergeRanges rs)

/-! ## Transactions and the paginated fetch loop -/

/-- A primitive write the page transaction performs. -/
inductive StoreOp where
  | insLogs (fid : String) (batch : List Event)
  | insRange (fid : String) (f t : Int)

def applyOp (st : Store) : StoreOp → Store
  | .insLogs fid batch => { st with logs := insertLogs st.logs fid batch }
  | .insRange fid f t => insertRangeRow st fid f t

/-- `db.transaction(...)()` over the assumed-ACID store: apply the
operations in order; if the failure oracle fails any of them the whole
transaction rolls back and `none` is returned (the store is unchanged). -/
def runTxn (fail : StoreOp → Store → Bool) :
    List StoreOp → Store → Option Store
  | [], st => some st
  | op :: ops, st =>
    if fail op st then none
    else runTxn fail ops (applyOp st op)

/-- The oracle of the failure-free runs. -/
def neverFail : StoreOp → Store → Bool := fun _ _ => false

/-- A page `[fromBlock, toBlock]` fetched upstream via `provider.getLogs`. -/
structure PageFetch where
  fromBlock : Int
  toBlock : Int
deriving DecidableEq, Repr

/-- The `while` loop of `LogCache.fetchLogs`: walk `[fromB, toB]` in
consecutive pages `[f, min (f + pageSize - 1) toB]`, fetch one page per
iteration, and call the callback with the accumulated logs, the page's logs
and the page bounds before advancing.  A callback returning `none` (a
thrown callback) aborts the walk: the pages fetched so far and the callback
state at the failure are returned with no log list.  The `1 ≤ pageSize`
conjunct mirrors the `pageSize < 1` guard both entry points place in front
of the loop (the loop is unreachable otherwise) and bounds the recursion. -/
def fetchPagesGo {σ : Type} (p : Provider)
    (cb : σ → List Event → List Event → Int → Int → Option σ)
    (pageSize toB : Int) : Nat → Int → List Event → σ →
      List PageFetch × σ × Option (List Event)
  | 0, _, logs, s => ([], s, some logs)
  | k + 1, fromB, logs, s =>
    if fromB ≤ toB ∧ 1 ≤ pageSize then
      let thisTo := min (fromB + pageSize - 1) toB
      let batch := chainFilter p fromB thisTo
      match cb s (logs ++ batch) batch fromB thisTo with
      | none => ([⟨fromB, thisTo⟩], s, none)
      | some s' =>
        let res := fetchPagesGo p cb pageSize toB k (thisTo + 1) (logs ++ batch) s'
        (⟨fromB, thisTo⟩ :: res.1, res.2.1, res.2.2)
    else ([], s, some logs)

/-- The loop entry: the fuel is the size of the remaining interval, which
each iteration strictly consumes (a page spans at least one block), so the
fuel-exhausted branch of `fetchPagesGo` is never reached. -/
def fetchPages {σ : Type} (p : Provider)
    (cb : σ → List Event → List Event → Int → Int → Option σ)
    (pageSize toB : Int) (fromB : Int) (logs : List Event) (s : σ) :
    List PageFetch × σ × Option (List Event) :=
  fetchPagesGo p cb pageSize toB (toB + 1 - fromB).toNat fromB logs s

theorem fetchPagesGo_fuel_irrel {σ : Type} (p : Provider)
    (cb : σ → List Event → List Event → Int → Int → Option σ) (ps toB : Int) :
    ∀ (k₁ : Nat), ∀ (k₂ : Nat) (fromB : Int) (logs : List Event) (s : σ),
      (toB + 1 - fromB).toNat ≤ k₁ → (toB + 1 - fromB).toNat ≤ k₂ →
      fetchPagesGo p cb ps toB k₁ fromB logs s =
        fetchPagesGo p cb ps toB k₂ fromB logs s := by
  intro k₁
  induction k₁ with
  | zero =>
    intro k₂ fromB logs s h₁ h₂
    rcases k₂ with _ | k₂
    · rfl
    · rw [fetchPagesGo, fetchPagesGo]
      rw [if_neg (by omega)]
  | succ k₁ ih =>
    intro k₂ fromB logs s h₁ h₂
    rcases k₂ with _ | k₂
    · rw [fetchPagesGo, fetchPagesGo]
      rw [if_neg (by omega)]
    · rw [fetchPagesGo, fetchPagesGo]
      by_cases h : fromB ≤ toB ∧ 1 ≤ ps
      · rw [if_pos h, if_pos h]
        rcases hcb : cb s
            (logs ++ chainFilter p fromB (min (fromB + ps - 1) toB))
            (chainFilter p fromB (min (fromB + ps - 1) toB)) fromB
            (min (fromB + ps - 1) toB) with _ | s'
        · simp only [hcb]
        · simp only [hcb]
          rw [ih k₂ (min (fromB + ps - 1) toB + 1) _ _ (by omega) (by omega)]
      · rw [if_neg h, if_neg h]

/-- `LogCache.fetchLogs` (static): validate the page size, resolve the
filter with default `toBlock = 'latest'`, then walk the pages. -/
def fetchLogs {σ : Type} (p : Provider) (flt : ModelFilter) (pageSize : Int)
    (cb : σ → List Event → List Event → Int → Int → Option σ) (s : σ) :
    Except Err (List PageFetch × σ × Option (List Event)) :=
  if pageSize < 1 then .error .invalidPageSize
  else
    match toStrictFilter p flt .latest with
    | .error e => .error e
    | .ok (fromB, toB) => .ok (fetchPages p cb pageSize toB fromB [] s)

/-- `{ ...filter, ...range }`: replace the block bounds, keep the filter
identity. -/
def rangeFilter (flt : ModelFilter) (r : BlockRange) : ModelFilter :=
  { flt with
      fromBlock := some (.num r.fromBlock)
      toBlock := some (.num r.toBlock) }

/-- The per-page transaction of `_fetchRangeToCache`:
`this._insertLogs(thisBatchLogs, filterId); this._insertRange(filterId,
thisBatchFrom, thisBatchTo)` inside one `db.transaction`. -/
def pageTxn (fail : StoreOp → Store → Bool) (fid : String) (st : Store)
    (batch : List Event) (f t : Int) : Option Store :=
  runTxn fail [.insLogs fid batch, .insRange fid f t] st

/-- `LogCache._fetchRangeToCache`: run `fetchLogs` over the range's bounds
with a callback that transactionally inserts each page's logs together with
that page's exact covering range. -/
def fetchRangeToCache (fail : StoreOp → Store → Bool) (p : Provider)
    (flt : ModelFilter) (r : BlockRange) (pageSize : Int) (st : Store) :
    Except Err (List PageFetch × Store × Option (List Event)) :=
  fetchLogs p (rangeFilter flt r) pageSize
    (fun st _ batch f t => pageTxn fail flt.fid st batch f t) st

/-- The `for` loop of `fetchLogsToCache` over the missing ranges: fetch them
sequentially, threading the store and accumulating the fetched pages;
an error aborts the loop, keeping the store committed so far. -/
def fetchMissingRanges (fail : StoreOp → Store → Bool) (p : Provider)
    (flt : ModelFilter) (pageSize : Int) :
    List BlockRange → Store → List PageFetch →
      Store × List PageFetch × Option Err
  | [], st, acc => (st, acc, none)
  | r :: rs, st, acc =>
    match fetchRangeToCache fail p flt r pageSize st with
    | .error e => (st, acc, some e)
    | .ok (pages, st', out) =>
      match out with
      | some _ => fetchMissingRanges fail p flt pageSize rs st' (acc ++ pages)
      | none => (st', acc ++ pages, some .storeFailure)

/-- `LogCache.fetchLogsToCache`: validate the page size, resolve with
default `toBlock = 'finalized'`, reject a resolved `toBlock` above the last
finalized block, tidy, compute the missing ranges, fetch them sequentially
and tidy again.  The store is returned alongside the outcome: an error
leaves the database exactly as the already-committed transactions left
it. -/
def fetchLogsToCache (fail : StoreOp → Store → Bool) (p : Provider)
    (flt : ModelFilter) (pageSize : Int) (st : Store) :
    Store × Except Err (List PageFetch × List BlockRange) :=
  if pageSize < 1 then (st, .error .invalidPageSize)
  else
    match toStrictFilter p flt .finalized with
    | .error e => (st, .error e)
    | .ok (fromB, toB) =>
      match getFinalizedBlockNumber p with
      | .error e => (st, .error e)
      | .ok lastFin =>
        if toB > lastFin then (st, .error .toBlockNotFinalized)
        else
          let st₁ := tidyUpRanges st flt.fid
          let missing := getMissingRanges st₁ flt.fid ⟨fromB, toB⟩
          match fetchMissingRanges fail p flt pageSize missing st₁ [] with
          | (st₂, _, some e) => (st₂, .error e)
          | (st₂, pages, none) =>
            (tidyUpRanges st₂ flt.fid, .ok (pages, missing))

/-- `LogCache.readLogsFromCache`: resolve with default `'latest'`, select
the filter's rows in range ordered by (blockNumber, logIndex), and map the
rows back to events. -/
def readLogsFromCache (p : Provider) (flt : ModelFilter) (st : Store) :
    Except Err (List Event) :=
  match toStrictFilter p flt .latest with
  | .error e => .error e
  | .ok (fromB, toB) => .ok ((selectLogs st flt.fid fromB toB).map rowEvent)

/-- `LogCache.getLogs`: read the finalized block number, resolve the filter
(default `'latest'`), fetch-and-cache the finalized part
`[fromB, min toB lastFin]`, read it back from the cache, and when `toB`
exceeds the finalized block, fetch `[lastFin + 1, toB]` live (uncached,
observer callback only) and append it.  Returns the logs, the final store,
the cached-path pages and the live pages. -/
def getLogs (p : Provider) (flt : ModelFilter) (pageSize : Int) (st : Store) :
    Except Err (List Event × Store × List PageFetch × List PageFetch) :=
  match p.finalizedBlock with
  | none => .error .invalidBlock
  | some lastFin =>
    match toStrictFilter p flt .latest with
    | .error e => .error e
    | .ok (fromB, toB) =>
      match fetchLogsToCache neverFail p
          { flt with
              fromBlock := some (.num fromB)
              toBlock := some (.num (min toB lastFin)) } pageSize st with
      | (_, .error e) => .error e
      | (st', .ok (cachePages, _)) =>
        match readLogsFromCache p
            { flt with
                fromBlock := some (.num fromB)
                toBlock := some (.num (min toB lastFin)) } st' with
        | .error e => .error e
        | .ok cached =>
          if toB > lastFin then
            match fetchLogs p
                { flt with
                    fromBlock := some (.num (lastFin + 1))
                    toBlock := some (.num toB) } pageSize
                (fun s _ _ _ _ => some s) () with
            | .error e => .error e
            | .ok (livePages, _, some live) =>
              .ok (cached ++ live, st', cachePages, livePages)
            | .ok (_, _, none) => .error .storeFailure
          else .ok (cached, st', cachePages, [])

/-! ## Lemmas about the fetch loop -/

theorem eventLe_block {a b : Event} (h : eventLe a b) :
    a.blockNumber ≤ b.blockNumber := by
  unfold eventLe at h
  omega

/-- Filtering a block-sorted list over `[a, m]` and `[m+1, b]` and
concatenating gives the filter over `[a, b]`. -/
theorem filter_between_split (l : List Event)
    (a m b : Int) (h1 : a ≤ m) (h2 : m ≤ b) : l.Pairwise eventLe →
    (l.filter fun e => decide (a ≤ e.blockNumber) && decide (e.blockNumber ≤ m)) ++
      (l.filter fun e => decide (m + 1 ≤ e.blockNumber) && decide (e.blockNumber ≤ b)) =
      l.filter fun e => decide (a ≤ e.blockNumber) && decide (e.blockNumber ≤ b) := by
  induction l with
  | nil => intro _; rfl
  | cons x xs ih =>
    intro hsort
    have hx := (List.pairwise_cons.1 hsort).1
    have htail := (List.pairwise_cons.1 hsort).2
    by_cases hx1 : a ≤ x.blockNumber ∧ x.blockNumber ≤ m
    · have c1 : (decide (a ≤ x.blockNumber) && decide (x.blockNumber ≤ m)) = true := by
        simp
        omega
      have c2 : (decide (m + 1 ≤ x.blockNumber) && decide (x.blockNumber ≤ b)) = false := by
        simp
        omega
      have c3 : (decide (a ≤ x.blockNumber) && decide (x.blockNumber ≤ b)) = true := by
        simp
        omega
      rw [List.filter_cons, List.filter_cons, List.filter_cons, c1, c2, c3]
      simp only [Bool.false_eq_true, if_true, if_false]
      rw [List.cons_append, ih htail]
    · by_cases hx2 : m + 1 ≤ x.blockNumber ∧ x.blockNumber ≤ b
      · have c1 : (decide (a ≤ x.blockNumber) && decide (x.blockNumber ≤ m)) = false := by
          simp
          omega
        have c2 : (decide (m + 1 ≤ x.blockNumber) && decide (x.blockNumber ≤ b)) = true := by
          simp
          omega
        have c3 : (decide (a ≤ x.blockNumber) && decide (x.blockNumber ≤ b)) = true := by
          simp
          omega
        have hxs : xs.filter (fun e =>
            decide (a ≤ e.blockNumber) && decide (e.blockNumber ≤ m)) = [] := by
          rw [List.filter_eq_nil_iff]
          intro e he
          have := eventLe_block (hx e he)
          simp
          omega
        have hcong : xs.filter (fun e =>
              decide (m + 1 ≤ e.blockNumber) && decide (e.blockNumber ≤ b)) =
            xs.filter (fun e =>
              decide (a ≤ e.blockNumber) && decide (e.blockNumber ≤ b)) := by
          refine List.filter_congr ?_
          intro e he
          have := eventLe_block (hx e he)
          rw [decide_eq_true (show m + 1 ≤ e.blockNumber by omega),
            decide_eq_true (show a ≤ e.blockNumber by omega)]
        rw [List.filter_cons, List.filter_cons, List.filter_cons, c1, c2, c3]
        simp only [Bool.false_eq_true, if_true, if_false]
        rw [hxs, List.nil_append, hcong]
      · have c1 : (decide (a ≤ x.blockNumber) && decide (x.blockNumber ≤ m)) = false := by
          simp
          omega
        have c2 : (decide (m + 1 ≤ x.blockNumber) && decide (x.blockNumber ≤ b)) = false := by
          simp
          omega
        have c3 : (decide (a ≤ x.blockNumber) && decide (x.blockNumber ≤ b)) = false := by
          simp
          omega
        rw [List.filter_cons, List.filter_cons, List.filter_cons, c1, c2, c3]
        simp only [Bool.false_eq_true, if_false]
        exact ih htail

theorem chainFilter_split (p : Provider) (hsort : chainOrdered p)
    {a m b : Int} (h1 : a ≤ m) (h2 : m ≤ b) :
    chainFilter p a m ++ chainFilter p (m + 1) b = chainFilter p a b :=
  filter_between_split p.chain a m b h1 h2 hsort

theorem chainFilter_empty (p : Provider) {a b : Int} (h : b < a) :
    chainFilter p a b = [] := by
  rw [chainFilter, List.filter_eq_nil_iff]
  intro e _
  simp
  omega

theorem fetchPages_step_stop {σ : Type} (p : Provider)
    (cb : σ → List Event → List Event → Int → Int → Option σ) {ps toB fromB : Int}
    (logs : List Event) (s : σ) (h : ¬ (fromB ≤ toB ∧ 1 ≤ ps)) :
    fetchPages p cb ps toB fromB logs s = ([], s, some logs) := by
  rw [fetchPages]
  rcases (toB + 1 - fromB).toNat with _ | k
  · rw [fetchPagesGo]
  · rw [fetchPagesGo, if_neg h]

theorem fetchPages_step_none {σ : Type} (p : Provider)
    (cb : σ → List Event → List Event → Int → Int → Option σ) {ps toB fromB : Int}
    (logs : List Event) (s : σ) (h : fromB ≤ toB ∧ 1 ≤ ps)
    (hcb : cb s (logs ++ chainFilter p fromB (min (fromB + ps - 1) toB))
      (chainFilter p fromB (min (fromB + ps - 1) toB)) fromB
      (min (fromB + ps - 1) toB) = none) :
    fetchPages p cb ps toB fromB logs s =
      ([⟨fromB, min (fromB + ps - 1) toB⟩], s, none) := by
  rw [fetchPages]
  obtain ⟨k, hk⟩ : ∃ k, (toB + 1 - fromB).toNat = k + 1 :=
    ⟨(toB + 1 - fromB).toNat - 1, by omega⟩
  rw [hk, fetchPagesGo, if_pos h]
  simp only [hcb]

theorem fetchPages_step_some {σ : Type} (p : Provider)
    (cb : σ → List Event → List Event → Int → Int → Option σ) {ps toB fromB : Int}
    (logs : List Event) (s s' : σ) (h : fromB ≤ toB ∧ 1 ≤ ps)
    (hcb : cb s (logs ++ chainFilter p fromB (min (fromB + ps - 1) toB))
      (chainFilter p fromB (min (fromB + ps - 1) toB)) fromB
      (min (fromB + ps - 1) toB) = some s') :
    fetchPages p cb ps toB fromB logs s =
      (⟨fromB, min (fromB + ps - 1) toB⟩ ::
          (fetchPages p cb ps toB (min (fromB + ps - 1) toB + 1)
            (logs ++ chainFilter p fromB (min (fromB + ps - 1) toB)) s').1,
        (fetchPages p cb ps toB (min (fromB + ps - 1) toB + 1)
          (logs ++ chainFilter p fromB (min (fromB + ps - 1) toB)) s').2.1,
        (fetchPages p cb ps toB (min (fromB + ps - 1) toB + 1)
          (logs ++ chainFilter p fromB (min (fromB + ps - 1) toB)) s').2.2) := by
  rw [fetchPages]
  obtain ⟨k, hk⟩ : ∃ k, (toB + 1 - fromB).toNat = k + 1 :=
    ⟨(toB + 1 - fromB).toNat - 1, by omega⟩
  rw [hk, fetchPagesGo, if_pos h]
  simp only [hcb]
  rw [show fetchPagesGo p cb ps toB k (min (fromB + ps - 1) toB + 1)
      (logs ++ chainFilter p fromB (min (fromB + ps - 1) toB)) s' =
      fetchPages p cb ps toB (min (fromB + ps - 1) toB + 1)
        (logs ++ chainFilter p fromB (min (fromB + ps - 1) toB)) s' from
    fetchPagesGo_fuel_irrel p cb ps toB k _ _ _ _ (by omega) (by omega)]

/-- Induction along the page walk, mirroring the three outcomes of one
iteration: callback failure, callback success, and loop exit. -/
theorem fetchPages_ind {σ : Type} (p : Provider)
    (cb : σ → List Event → List Event → Int → Int → Option σ) (ps toB : Int)
    (motive : Int → List Event → σ → Prop)
    (h₁ : ∀ (fromB : Int) (logs : List Event) (s : σ),
      fromB ≤ toB ∧ 1 ≤ ps →
      let thisTo := min (fromB + ps - 1) toB
      let batch := chainFilter p fromB thisTo
      cb s (logs ++ batch) batch fromB thisTo = none → motive fromB logs s)
    (h₂ : ∀ (fromB : Int) (logs : List Event) (s : σ),
      fromB ≤ toB ∧ 1 ≤ ps →
      let thisTo := min (fromB + ps - 1) toB
      let batch := chainFilter p fromB thisTo
      ∀ s', cb s (logs ++ batch) batch fromB thisTo = some s' →
        motive (thisTo + 1) (logs ++ batch) s' → motive fromB logs s)
    (h₃ : ∀ (fromB : Int) (logs : List Event) (s : σ),
      ¬ (fromB ≤ toB ∧ 1 ≤ ps) → motive fromB logs s) :
    ∀ (fromB : Int) (logs : List Event) (s : σ), motive fromB logs s := by
  have aux : ∀ (k : Nat) (fromB : Int), (toB + 1 - fromB).toNat ≤ k →
      ∀ (logs : List Event) (s : σ), motive fromB logs s := by
    intro k
    induction k with
    | zero =>
      intro fromB hk logs s
      exact h₃ fromB logs s (by omega)
    | succ k ih =>
      intro fromB hk logs s
      by_cases h : fromB ≤ toB ∧ 1 ≤ ps
      · rcases hcb : cb s
            (logs ++ chainFilter p fromB (min (fromB + ps - 1) toB))
            (chainFilter p fromB (min (fromB + ps - 1) toB)) fromB
            (min (fromB + ps - 1) toB) with _ | s'
        · exact h₁ fromB logs s h hcb
        · exact h₂ fromB logs s h s' hcb (ih _ (by omega) _ _)
      · exact h₃ fromB logs s h
  intro fromB logs s
  exact aux (toB + 1 - fromB).toNat fromB (le_refl _) logs s

/-- Every fetched page lies within `[fromB, toB]` and obeys
`thisTo = min (fromB + pageSize - 1) toB`. -/
theorem fetchPages_mem_pages {σ : Type} (p : Provider)
    (cb : σ → List Event → List Event → Int → Int → Option σ) (ps toB : Int) :
    ∀ (fromB : Int) (logs : List Event) (s : σ),
      ∀ pg ∈ (fetchPages p cb ps toB fromB logs s).1,
        fromB ≤ pg.fromBlock ∧ pg.toBlock ≤ toB ∧
          pg.toBlock = min (pg.fromBlock + ps - 1) toB := by
  refine fetchPages_ind p cb ps toB (fun fromB logs s =>
    ∀ pg ∈ (fetchPages p cb ps toB fromB logs s).1,
      fromB ≤ pg.fromBlock ∧ pg.toBlock ≤ toB ∧
        pg.toBlock = min (pg.fromBlock + ps - 1) toB) ?_ ?_ ?_
  · intro fromB logs s h thisTo batch hcb pg hpg
    rw [fetchPages_step_none p cb logs s h hcb] at hpg
    rw [List.mem_singleton] at hpg
    subst hpg
    exact ⟨le_refl _, min_le_right _ _, rfl⟩
  · intro fromB logs s h thisTo batch s' hcb ih pg hpg
    rw [fetchPages_step_some p cb logs s s' h hcb] at hpg
    rcases List.mem_cons.1 hpg with hpg | hpg
    · subst hpg
      exact ⟨le_refl _, min_le_right _ _, rfl⟩
    · obtain ⟨h1, h2, h3⟩ := ih pg hpg
      refine ⟨?_, h2, h3⟩
      have : fromB ≤ min (fromB + ps - 1) toB := by omega
      omega
  · intro fromB logs s h pg hpg
    rw [fetchPages_step_stop p cb logs s h] at hpg
    exact absurd hpg (List.not_mem_nil _)

/-- When the callback never fails, every block of `[fromB, toB]` is covered
by some fetched page. -/
theorem fetchPages_cover {σ : Type} (p : Provider)
    (cb : σ → List Event → List Event → Int → Int → Option σ) (ps toB : Int)
    (hps : 1 ≤ ps)
    (hcb : ∀ s a b f t, (cb s a b f t).isSome = true) :
    ∀ (fromB : Int) (logs : List Event) (s : σ),
      ∀ n : Int, fromB ≤ n → n ≤ toB →
        ∃ pg ∈ (fetchPages p cb ps toB fromB logs s).1,
          pg.fromBlock ≤ n ∧ n ≤ pg.toBlock := by
  refine fetchPages_ind p cb ps toB (fun fromB logs s =>
    ∀ n : Int, fromB ≤ n → n ≤ toB →
      ∃ pg ∈ (fetchPages p cb ps toB fromB logs s).1,
        pg.fromBlock ≤ n ∧ n ≤ pg.toBlock) ?_ ?_ ?_
  · intro fromB logs s h thisTo batch hc n h1 h2
    have := hcb s (logs ++ batch) batch fromB thisTo
    rw [hc] at this
    simp at this
  · intro fromB logs s h thisTo batch s' hc ih n h1 h2
    rw [fetchPages_step_some p cb logs s s' h hc]
    by_cases hn : n ≤ min (fromB + ps - 1) toB
    · exact ⟨⟨fromB, min (fromB + ps - 1) toB⟩, List.mem_cons_self _ _, h1, hn⟩
    · push_neg at hn
      obtain ⟨pg, hpg, hb⟩ := ih n (by omega) h2
      exact ⟨pg, List.mem_cons_of_mem _ hpg, hb⟩
  · intro fromB logs s h n h1 h2
    exact absurd ⟨le_trans h1 h2, hps⟩ h

/-- When the callback never fails and the chain is ordered, the loop returns
the accumulated logs followed by all chain events of `[fromB, toB]`. -/
theorem fetchPages_out {σ : Type} (p : Provider)
    (cb : σ → List Event → List Event → Int → Int → Option σ) (ps toB : Int)
    (hps : 1 ≤ ps) (hsort : chainOrdered p)
    (hcb : ∀ s a b f t, (cb s a b f t).isSome = true) :
    ∀ (fromB : Int) (logs : List Event) (s : σ),
      (fetchPages p cb ps toB fromB logs s).2.2 =
        some (logs ++ chainFilter p fromB toB) := by
  refine fetchPages_ind p cb ps toB (fun fromB logs s =>
    (fetchPages p cb ps toB fromB logs s).2.2 =
      some (logs ++ chainFilter p fromB toB)) ?_ ?_ ?_
  · intro fromB logs s h thisTo batch hc
    have := hcb s (logs ++ batch) batch fromB thisTo
    rw [hc] at this
    simp at this
  · intro fromB logs s h thisTo batch s' hc ih
    rw [fetchPages_step_some p cb logs s s' h hc]
    show (fetchPages p cb ps toB (min (fromB + ps - 1) toB + 1)
        (logs ++ chainFilter p fromB (min (fromB + ps - 1) toB)) s').2.2 = _
    rw [ih, List.append_assoc,
      chainFilter_split p hsort (by omega) (min_le_right _ _)]
  · intro fromB logs s h
    rw [fetchPages_step_stop p cb logs s h]
    have hlt : toB < fromB := by
      rcases not_and_or.1 h with h' | h'
      · omega
      · exact absurd hps h'
    rw [chainFilter_empty p hlt, List.append_nil]

/-- The fetched pages are consecutive (`next.fromBlock = cur.toBlock + 1`)
and start at `fromB`. -/
theorem fetchPages_chain {σ : Type} (p : Provider)
    (cb : σ → List Event → List Event → Int → Int → Option σ) (ps toB : Int) :
    ∀ (fromB : Int) (logs : List Event) (s : σ),
      List.Chain' (fun a b => b.fromBlock = a.toBlock + 1)
        (fetchPages p cb ps toB fromB logs s).1 ∧
      ∀ pg, (fetchPages p cb ps toB fromB logs s).1.head? = some pg →
        pg.fromBlock = fromB := by
  refine fetchPages_ind p cb ps toB (fun fromB logs s =>
    List.Chain' (fun a b => b.fromBlock = a.toBlock + 1)
      (fetchPages p cb ps toB fromB logs s).1 ∧
    ∀ pg, (fetchPages p cb ps toB fromB logs s).1.head? = some pg →
      pg.fromBlock = fromB) ?_ ?_ ?_
  · intro fromB logs s h thisTo batch hc
    rw [fetchPages_step_none p cb logs s h hc]
    refine ⟨List.chain'_singleton _, ?_⟩
    intro pg hpg
    simp only [List.head?_cons, Option.some.injEq] at hpg
    exact hpg ▸ rfl
  · intro fromB logs s h thisTo batch s' hc ih
    rw [fetchPages_step_some p cb logs s s' h hc]
    constructor
    · rw [List.chain'_cons']
      refine ⟨?_, ih.1⟩
      intro pg hpg
      exact ih.2 pg hpg
    · intro pg hpg
      simp only [List.head?_cons, Option.some.injEq] at hpg
      exact hpg ▸ rfl
  · intro fromB logs s h
    rw [fetchPages_step_stop p cb logs s h]
    exact ⟨List.chain'_nil, fun pg hpg => by simp at hpg⟩

/-- The progress calls the spec prescribes for a list of pages: one call per
page, carrying the logs accumulated so far, the page's logs and its
bounds. -/
def pagesToCalls (p : Provider) :
    List Event → List PageFetch → List (List Event × List Event × Int × Int)
  | _, [] => []
  | logs, pg :: pgs =>
    (logs ++ chainFilter p pg.fromBlock pg.toBlock,
        chainFilter p pg.fromBlock pg.toBlock, pg.fromBlock, pg.toBlock) ::
      pagesToCalls p (logs ++ chainFilter p pg.fromBlock pg.toBlock) pgs

/-- An observer callback recording every invocation. -/
def traceCb : List (List Event × List Event × Int × Int) → List Event →
    List Event → Int → Int →
    Option (List (List Event × List Event × Int × Int)) :=
  fun tr a b f t => some (tr ++ [(a, b, f, t)])

/-- Run with the recording callback, the loop produces exactly the calls
`pagesToCalls` prescribes for its pages. -/
theorem fetchPages_trace (p : Provider) (ps toB : Int) :
    ∀ (fromB : Int) (logs : List Event)
      (tr : List (List Event × List Event × Int × Int)),
      (fetchPages p traceCb ps toB fromB logs tr).2.1 =
        tr ++ pagesToCalls p logs (fetchPages p traceCb ps toB fromB logs tr).1 := by
  refine fetchPages_ind p traceCb ps toB (fun fromB logs tr =>
    (fetchPages p traceCb ps toB fromB logs tr).2.1 =
      tr ++ pagesToCalls p logs (fetchPages p traceCb ps toB fromB logs tr).1)
    ?_ ?_ ?_
  · intro fromB logs tr h thisTo batch hc
    exact absurd hc (by simp [traceCb])
  · intro fromB logs tr h thisTo batch s' hc ih
    rw [fetchPages_step_some p traceCb logs tr s' h hc]
    have hs' : s' = tr ++ [(logs ++ chainFilter p fromB (min (fromB + ps - 1) toB),
        chainFilter p fromB (min (fromB + ps - 1) toB), fromB,
        min (fromB + ps - 1) toB)] := by
      have := hc
      simp only [traceCb, Option.some.injEq] at this
      exact this.symm
    show (fetchPages p traceCb ps toB (min (fromB + ps - 1) toB + 1)
        (logs ++ chainFilter p fromB (min (fromB + ps - 1) toB)) s').2.1 = _
    rw [ih, hs', pagesToCalls, List.append_assoc]
    rfl
  · intro fromB logs tr h
    rw [fetchPages_step_stop p traceCb logs tr h]
    rw [pagesToCalls, List.append_nil]

/-- Committing one page: the page's records inserted and its exact covering
range row appended, in that order. -/
def commitPage (p : Provider) (fid : String) (st : Store) (pg : PageFetch) : Store :=
  applyOp (applyOp st (.insLogs fid (chainFilter p pg.fromBlock pg.toBlock)))
    (.insRange fid pg.fromBlock pg.toBlock)

/-- Committing a list of pages in order. -/
def commitPages (p : Provider) (fid : String) (st : Store)
    (pgs : List PageFetch) : Store :=
  pgs.foldl (commitPage p fid) st

theorem runTxn_pair_some {fail : StoreOp → Store → Bool} {op₁ op₂ : StoreOp}
    {st st' : Store} (h : runTxn fail [op₁, op₂] st = some st') :
    st' = applyOp (applyOp st op₁) op₂ := by
  unfold runTxn at h
  split at h
  · exact absurd h (by simp)
  · unfold runTxn at h
    split at h
    · exact absurd h (by simp)
    · unfold runTxn at h
      exact (Option.some.injEq _ _ ▸ h).symm

theorem pageTxn_some {fail : StoreOp → Store → Bool} {fid : String} {st st' : Store}
    {batch : List Event} {f t : Int}
    (h : pageTxn fail fid st batch f t = some st') :
    st' = applyOp (applyOp st (.insLogs fid batch)) (.insRange fid f t) :=
  runTxn_pair_some h

/-- The page-transaction loop commits an exact prefix of the fetched pages:
each committed page contributes both its records and its covering range
row, a failed page contributes neither, and a successful run commits every
page. -/
theorem fetchPages_txn_prefix (fail : StoreOp → Store → Bool) (p : Provider)
    (fid : String) (ps toB : Int) :
    ∀ (fromB : Int) (logs : List Event) (st : Store),
      ∃ k ≤ (fetchPages p (fun st _ batch f t => pageTxn fail fid st batch f t)
          ps toB fromB logs st).1.length,
        (fetchPages p (fun st _ batch f t => pageTxn fail fid st batch f t)
            ps toB fromB logs st).2.1 =
          commitPages p fid st
            ((fetchPages p (fun st _ batch f t => pageTxn fail fid st batch f t)
              ps toB fromB logs st).1.take k) ∧
        ((fetchPages p (fun st _ batch f t => pageTxn fail fid st batch f t)
            ps toB fromB logs st).2.2 ≠ none →
          k = (fetchPages p (fun st _ batch f t => pageTxn fail fid st batch f t)
            ps toB fromB logs st).1.length) := by
  refine fetchPages_ind p
    (fun st _ batch f t => pageTxn fail fid st batch f t) ps toB
    (fun fromB logs st =>
      ∃ k ≤ (fetchPages p (fun st _ batch f t => pageTxn fail fid st batch f t)
          ps toB fromB logs st).1.length,
        (fetchPages p (fun st _ batch f t => pageTxn fail fid st batch f t)
            ps toB fromB logs st).2.1 =
          commitPages p fid st
            ((fetchPages p (fun st _ batch f t => pageTxn fail fid st batch f t)
              ps toB fromB logs st).1.take k) ∧
        ((fetchPages p (fun st _ batch f t => pageTxn fail fid st batch f t)
            ps toB fromB logs st).2.2 ≠ none →
          k = (fetchPages p (fun st _ batch f t => pageTxn fail fid st batch f t)
            ps toB fromB logs st).1.length)) ?_ ?_ ?_
  · intro fromB logs st h thisTo batch hc
    rw [fetchPages_step_none p _ logs st h hc]
    exact ⟨0, by simp, rfl, fun hout => absurd rfl hout⟩
  · intro fromB logs st h thisTo batch st' hc ih
    rw [fetchPages_step_some p _ logs st st' h hc]
    obtain ⟨k, hk, hst, hout⟩ := ih
    refine ⟨k + 1, by simpa using Nat.add_le_add_right hk 1, ?_, ?_⟩
    · show (fetchPages p _ ps toB (min (fromB + ps - 1) toB + 1)
          (logs ++ chainFilter p fromB (min (fromB + ps - 1) toB)) st').2.1 = _
      rw [List.take_succ_cons]
      show _ = commitPages p fid st
        (⟨fromB, min (fromB + ps - 1) toB⟩ ::
          ((fetchPages p _ ps toB (min (fromB + ps - 1) toB + 1)
            (logs ++ chainFilter p fromB (min (fromB + ps - 1) toB)) st').1.take k))
      rw [commitPages, List.foldl_cons]
      have hst' : commitPage p fid st ⟨fromB, min (fromB + ps - 1) toB⟩ = st' :=
        (pageTxn_some hc).symm
      rw [hst']
      exact hst
    · intro hne
      have := hout hne
      simp [this]
  · intro fromB logs st h
    rw [fetchPages_step_stop p _ logs st h]
    exact ⟨0, by simp, rfl, fun _ => rfl⟩

/-! ## Claim theorems about the fetch loop and error handling -/

/-- C6: each page's record inserts and the insert of that page's exact
covering range execute inside one store transaction: for every failure
oracle, the final store is the commit of an exact prefix of the fetched
pages (each committed page contributes both its records and its covering
range row, a failed page contributes neither, prior pages stay committed),
and a successful run commits every page. -/
theorem fetchRangeToCache_atomic (fail : StoreOp → Store → Bool) (p : Provider)
    (flt : ModelFilter) (r : BlockRange) (ps : Int) (st : Store)
    (pages : List PageFetch) (st' : Store) (out : Option (List Event))
    (h : fetchRangeToCache fail p flt r ps st = .ok (pages, st', out)) :
    ∃ k ≤ pages.length, st' = commitPages p flt.fid st (pages.take k) ∧
      (out ≠ none → k = pages.length) := by
  unfold fetchRangeToCache fetchLogs at h
  split at h
  · exact absurd h (by simp)
  · split at h
    · exact absurd h (by simp)
    · rename_i fromB' toB' heq
      rw [Except.ok.injEq] at h
      have e1 : (fetchPages p
          (fun st _ batch f t => pageTxn fail flt.fid st batch f t)
          ps toB' fromB' [] st).1 = pages := by rw [h]
      have e2 : (fetchPages p
          (fun st _ batch f t => pageTxn fail flt.fid st batch f t)
          ps toB' fromB' [] st).2.1 = st' := by rw [h]
      have e3 : (fetchPages p
          (fun st _ batch f t => pageTxn fail flt.fid st batch f t)
          ps toB' fromB' [] st).2.2 = out := by rw [h]
      rw [← e1, ← e2, ← e3]
      exact fetchPages_txn_prefix fail p flt.fid ps toB' fromB' [] st

/-- The failure oracle of the C6 witness: the range-row insert of the page
starting at block 3 fails. -/
def failAt3 : StoreOp → Store → Bool :=
  fun op _ =>
    match op with
    | .insRange _ f _ => decide (f = 3)
    | _ => false

/-- Witness for C6: fetching `[1, 4]` with page size 2 under an oracle that
fails the second page's transaction commits exactly the first page (its
record and its range row) and nothing of the second. -/
theorem fetchRangeToCache_atomic_witness :
    ∃ k ≤ ([⟨1, 2⟩, ⟨3, 4⟩] : List PageFetch).length,
      (⟨[⟨"F", 1, 0, "a"⟩], [⟨"F", 1, 2⟩]⟩ : Store) =
        commitPages ⟨[⟨1, 0, "a"⟩, ⟨4, 0, "b"⟩], some 0, some 9, some 9⟩ "F"
          ⟨[], []⟩ (([⟨1, 2⟩, ⟨3, 4⟩] : List PageFetch).take k) ∧
      ((none : Option (List Event)) ≠ none →
        k = ([⟨1, 2⟩, ⟨3, 4⟩] : List PageFetch).length) :=
  fetchRangeToCache_atomic failAt3
    ⟨[⟨1, 0, "a"⟩, ⟨4, 0, "b"⟩], some 0, some 9, some 9⟩
    ⟨none, none, "F"⟩ ⟨1, 4⟩ 2 ⟨[], []⟩ [⟨1, 2⟩, ⟨3, 4⟩]
    ⟨[⟨"F", 1, 0, "a"⟩], [⟨"F", 1, 2⟩]⟩ none (by rfl)

theorem tagToNumber_error {p : Provider} {t : BlockTag} {e : Err}
    (h : tagToNumber p t = .error e) : e = .invalidBlock := by
  rcases t with n | _ | _ | _
  · exact absurd h (by simp [tagToNumber])
  · simp only [tagToNumber, getBlockNumber] at h
    rcases hp : p.earliestBlock with _ | n <;> rw [hp] at h <;> simp at h
    exact h.symm
  · simp only [tagToNumber, getBlockNumber] at h
    rcases hp : p.latestBlock with _ | n <;> rw [hp] at h <;> simp at h
    exact h.symm
  · simp only [tagToNumber, getBlockNumber] at h
    rcases hp : p.finalizedBlock with _ | n <;> rw [hp] at h <;> simp at h
    exact h.symm

theorem toStrictFilter_error {p : Provider} {flt : ModelFilter} {d : BlockTag}
    {e : Err} (h : toStrictFilter p flt d = .error e) : e = .invalidBlock := by
  unfold toStrictFilter at h
  split at h
  · rename_i e' he
    rw [Except.error.injEq] at h
    exact h ▸ tagToNumber_error he
  · split at h
    · rename_i e' he
      rw [Except.error.injEq] at h
      exact h ▸ tagToNumber_error he
    · exact absurd h (by simp)

theorem fetchLogs_error {σ : Type} {p : Provider} {flt : ModelFilter}
    {ps : Int} {cb : σ → List Event → List Event → Int → Int → Option σ}
    {s : σ} {e : Err} (hps : 1 ≤ ps)
    (h : fetchLogs p flt ps cb s = .error e) : e = .invalidBlock := by
  unfold fetchLogs at h
  rw [if_neg (by omega)] at h
  split at h
  · rename_i e' he
    rw [Except.error.injEq] at h
    exact h ▸ toStrictFilter_error he
  · exact absurd h (by simp)

theorem fetchRangeToCache_error {fail : StoreOp → Store → Bool} {p : Provider}
    {flt : ModelFilter} {r : BlockRange} {ps : Int} {st : Store} {e : Err}
    (hps : 1 ≤ ps) (h : fetchRangeToCache fail p flt r ps st = .error e) :
    e = .invalidBlock :=
  fetchLogs_error hps h

theorem fetchMissingRanges_error {fail : StoreOp → Store → Bool} {p : Provider}
    {flt : ModelFilter} {ps : Int} (hps : 1 ≤ ps) :
    ∀ (rs : List BlockRange) (st : Store) (acc : List PageFetch) {e : Err},
      (fetchMissingRanges fail p flt ps rs st acc).2.2 = some e →
      e = .invalidBlock ∨ e = .storeFailure := by
  intro rs
  induction rs with
  | nil =>
    intro st acc e h
    exact absurd h (by simp [fetchMissingRanges])
  | cons r rs ih =>
    intro st acc e h
    unfold fetchMissingRanges at h
    split at h
    · rename_i e' he
      simp only [Option.some.injEq] at h
      exact Or.inl (h ▸ fetchRangeToCache_error hps he)
    · split at h
      · exact ih _ _ h
      · simp only [Option.some.injEq] at h
        exact Or.inr h.symm

/-- C10: `fetchLogs` and `fetchLogsToCache` fail with the invalid-page-size
error exactly when `pageSize < 1`, before fetching anything upstream or
touching the store (the store comes back unchanged); with `pageSize ≥ 1`
neither operation ever raises that error. -/
theorem pageSize_validation {σ : Type} (p : Provider) (flt : ModelFilter)
    (ps : Int) (cb : σ → List Event → List Event → Int → Int → Option σ)
    (s : σ) (fail : StoreOp → Store → Bool) (st : Store) :
    (ps < 1 →
      fetchLogs p flt ps cb s = .error .invalidPageSize ∧
      fetchLogsToCache fail p flt ps st = (st, .error .invalidPageSize)) ∧
    (1 ≤ ps →
      fetchLogs p flt ps cb s ≠ .error .invalidPageSize ∧
      (fetchLogsToCache fail p flt ps st).2 ≠ .error .invalidPageSize) := by
  constructor
  · intro hlt
    constructor
    · rw [fetchLogs, if_pos hlt]
    · rw [fetchLogsToCache, if_pos hlt]
  · intro hps
    constructor
    · intro h
      have := fetchLogs_error hps h
      exact absurd this (by simp)
    · intro h
      unfold fetchLogsToCache at h
      rw [if_neg (by omega)] at h
      split at h
      · rename_i e' he
        simp only at h
        rw [Except.error.injEq] at h
        have hblk := toStrictFilter_error he
        rw [h] at hblk
        exact absurd hblk (by simp)
      · split at h
        · rename_i e' he
          simp only at h
          rw [Except.error.injEq] at h
          unfold getFinalizedBlockNumber at he
          split at he
          · exact absurd he (by simp)
          · rw [Except.error.injEq] at he
            rw [← he] at h
            exact absurd h (by simp)
        · split at h
          · simp only at h
            rw [Except.error.injEq] at h
            exact absurd h.symm (by simp)
          · simp only [] at h
            split at h
            · rename_i st₂ x e' hloop
              simp only at h
              rw [Except.error.injEq] at h
              have h22 := congrArg (fun q => q.2.2) hloop
              simp only at h22
              rcases fetchMissingRanges_error hps _ _ _ h22 with h' | h'
              · rw [h] at h'
                exact absurd h' (by simp)
              · rw [h] at h'
                exact absurd h' (by simp)
            · simp at h

/-- C5: whenever the resolved upper bound exceeds the current last-finalized
block (and the page size passes its own earlier validation), `fetchLogsToCache`
fails with the finality-violation error, and the store comes back exactly as
it was: no records, no ranges, no tidy. -/
theorem fetchLogsToCache_finality (fail : StoreOp → Store → Bool) (p : Provider)
    (flt : ModelFilter) (ps fromB toB lastFin : Int) (st : Store)
    (hps : 1 ≤ ps)
    (hres : toStrictFilter p flt .finalized = .ok (fromB, toB))
    (hfin : p.finalizedBlock = some lastFin)
    (hgt : lastFin < toB) :
    fetchLogsToCache fail p flt ps st = (st, .error .toBlockNotFinalized) := by
  rw [fetchLogsToCache, if_neg (by omega), hres]
  rw [show getFinalizedBlockNumber p = .ok lastFin from by
    rw [getFinalizedBlockNumber, hfin]]
  simp only []
  rw [if_pos (show toB > lastFin by omega)]

/-- Witness for C5: requesting `toBlock = 7` when the last finalized block
is `5` fails with the finality error and leaves the store untouched. -/
theorem fetchLogsToCache_finality_witness :
    fetchLogsToCache neverFail ⟨[], some 0, some 9, some 5⟩
        ⟨some (.num 1), some (.num 7), "F"⟩ 1 ⟨[], []⟩ =
      (⟨[], []⟩, .error .toBlockNotFinalized) :=
  fetchLogsToCache_finality neverFail ⟨[], some 0, some 9, some 5⟩
    ⟨some (.num 1), some (.num 7), "F"⟩ 1 1 7 5 ⟨[], []⟩
    (by omega) (by rfl) (by rfl) (by omega)

instance : DecidableRel eventLe := fun a b => by
  unfold eventLe; infer_instance

instance (p : Provider) : Decidable (chainOrdered p) := by
  unfold chainOrdered; infer_instance

/-- The loop result is also the concatenation of the pages' batches in page
order (no ordering assumption on the chain needed). -/
theorem fetchPages_out_flatten {σ : Type} (p : Provider)
    (cb : σ → List Event → List Event → Int → Int → Option σ) (ps toB : Int)
    (hcb : ∀ s a b f t, (cb s a b f t).isSome = true) :
    ∀ (fromB : Int) (logs : List Event) (s : σ),
      (fetchPages p cb ps toB fromB logs s).2.2 =
        some (logs ++ ((fetchPages p cb ps toB fromB logs s).1.map
          fun pg => chainFilter p pg.fromBlock pg.toBlock).flatten) := by
  refine fetchPages_ind p cb ps toB (fun fromB logs s =>
    (fetchPages p cb ps toB fromB logs s).2.2 =
      some (logs ++ ((fetchPages p cb ps toB fromB logs s).1.map
        fun pg => chainFilter p pg.fromBlock pg.toBlock).flatten)) ?_ ?_ ?_
  · intro fromB logs s h thisTo batch hc
    have := hcb s (logs ++ batch) batch fromB thisTo
    rw [hc] at this
    simp at this
  · intro fromB logs s h thisTo batch s' hc ih
    rw [fetchPages_step_some p cb logs s s' h hc]
    show (fetchPages p cb ps toB (min (fromB + ps - 1) toB + 1)
        (logs ++ chainFilter p fromB (min (fromB + ps - 1) toB)) s').2.2 = _
    rw [ih]
    simp [List.append_assoc]
  · intro fromB logs s h
    rw [fetchPages_step_stop p cb logs s h]
    simp

/-- C7: for `pageSize ≥ 1` and a resolved range, `fetchLogs` walks the range
in consecutive pages `[f, min (f + pageSize - 1) toBlock]` starting at
`fromBlock`, issues exactly one upstream fetch per page, invokes the batch
callback once after each page with the records accumulated so far, the
page's records and the page's bounds (in page order), and returns the
concatenation of all pages' records; when `fromBlock > toBlock` it returns
an empty list without fetching. -/
theorem fetchLogs_paged (p : Provider) (flt : ModelFilter) (ps fromB toB : Int)
    (hps : 1 ≤ ps) (hres : toStrictFilter p flt .latest = .ok (fromB, toB))
    (hsort : chainOrdered p) :
    ∃ pages out,
      fetchLogs p flt ps traceCb [] =
        .ok (pages, pagesToCalls p [] pages, some out) ∧
      (∀ pg ∈ pages, fromB ≤ pg.fromBlock ∧ pg.toBlock ≤ toB ∧
        pg.toBlock = min (pg.fromBlock + ps - 1) toB) ∧
      List.Chain' (fun a b => b.fromBlock = a.toBlock + 1) pages ∧
      (∀ pg, pages.head? = some pg → pg.fromBlock = fromB) ∧
      (∀ n : Int, fromB ≤ n → n ≤ toB →
        ∃ pg ∈ pages, pg.fromBlock ≤ n ∧ n ≤ pg.toBlock) ∧
      out = (pages.map fun pg => chainFilter p pg.fromBlock pg.toBlock).flatten ∧
      out = chainFilter p fromB toB ∧
      (toB < fromB → pages = [] ∧ out = []) := by
  have htotal : ∀ (s : List (List Event × List Event × Int × Int))
      (a b : List Event) (f t : Int), (traceCb s a b f t).isSome = true := by
    intro s a b f t
    simp [traceCb]
  refine ⟨(fetchPages p traceCb ps toB fromB [] []).1, chainFilter p fromB toB,
    ?_, fetchPages_mem_pages p traceCb ps toB fromB [] [],
    (fetchPages_chain p traceCb ps toB fromB [] []).1,
    (fetchPages_chain p traceCb ps toB fromB [] []).2,
    fetchPages_cover p traceCb ps toB hps htotal fromB [] [], ?_, rfl, ?_⟩
  · rw [fetchLogs, if_neg (by omega), hres]
    have h1 : (fetchPages p traceCb ps toB fromB [] []).2.1 =
        pagesToCalls p [] (fetchPages p traceCb ps toB fromB [] []).1 := by
      rw [fetchPages_trace p ps toB fromB [] [], List.nil_append]
    have h2 : (fetchPages p traceCb ps toB fromB [] []).2.2 =
        some (chainFilter p fromB toB) := by
      rw [fetchPages_out p traceCb ps toB hps hsort htotal fromB [] [],
        List.nil_append]
    rw [← h1, ← h2]
  · have h2 : (fetchPages p traceCb ps toB fromB [] []).2.2 =
        some (chainFilter p fromB toB) := by
      rw [fetchPages_out p traceCb ps toB hps hsort htotal fromB [] [],
        List.nil_append]
    have h3 := fetchPages_out_flatten p traceCb ps toB htotal fromB [] []
    rw [h2, List.nil_append] at h3
    exact Option.some.injEq _ _ ▸ h3
  · intro hlt
    constructor
    · rw [fetchPages_step_stop p traceCb [] [] (by omega)]
    · exact chainFilter_empty p hlt

/-- Witness for C7: two blocks fetched with page size 1. -/
theorem fetchLogs_paged_witness :
    ∃ pages out,
      fetchLogs ⟨[⟨1, 0, "a"⟩, ⟨2, 0, "b"⟩], some 0, some 9, some 9⟩
          ⟨some (.num 1), some (.num 2), "F"⟩ 1 traceCb [] =
        .ok (pages, pagesToCalls ⟨[⟨1, 0, "a"⟩, ⟨2, 0, "b"⟩], some 0, some 9,
          some 9⟩ [] pages, some out) ∧
      (∀ pg ∈ pages, (1 : Int) ≤ pg.fromBlock ∧ pg.toBlock ≤ 2 ∧
        pg.toBlock = min (pg.fromBlock + 1 - 1) 2) ∧
      List.Chain' (fun a b => b.fromBlock = a.toBlock + 1) pages ∧
      (∀ pg, pages.head? = some pg → pg.fromBlock = 1) ∧
      (∀ n : Int, 1 ≤ n → n ≤ 2 →
        ∃ pg ∈ pages, pg.fromBlock ≤ n ∧ n ≤ pg.toBlock) ∧
      out = (pages.map fun pg =>
        chainFilter ⟨[⟨1, 0, "a"⟩, ⟨2, 0, "b"⟩], some 0, some 9, some 9⟩
          pg.fromBlock pg.toBlock).flatten ∧
      out = chainFilter ⟨[⟨1, 0, "a"⟩, ⟨2, 0, "b"⟩], some 0, some 9, some 9⟩ 1 2 ∧
      ((2 : Int) < 1 → pages = [] ∧ out = []) :=
  fetchLogs_paged ⟨[⟨1, 0, "a"⟩, ⟨2, 0, "b"⟩], some 0, some 9, some 9⟩
    ⟨some (.num 1), some (.num 2), "F"⟩ 1 1 2 (by omega) (by rfl) (by decide)

/-- Witness for C10, applied at page sizes `0` and `1`. -/
theorem pageSize_validation_witness :
    (fetchLogs ⟨[], some 0, some 9, some 5⟩ ⟨some (.num 1), some (.num 3), "F"⟩
        0 traceCb [] = .error .invalidPageSize ∧
      fetchLogsToCache neverFail ⟨[], some 0, some 9, some 5⟩
        ⟨some (.num 1), some (.num 3), "F"⟩ 0 ⟨[], []⟩ =
        (⟨[], []⟩, .error .invalidPageSize)) ∧
    (fetchLogs ⟨[], some 0, some 9, some 5⟩ ⟨some (.num 1), some (.num 3), "F"⟩
        1 traceCb [] ≠ .error .invalidPageSize ∧
      (fetchLogsToCache neverFail ⟨[], some 0, some 9, some 5⟩
        ⟨some (.num 1), some (.num 3), "F"⟩ 1 ⟨[], []⟩).2 ≠
        .error .invalidPageSize) :=
  ⟨(pageSize_validation ⟨[], some 0, some 9, some 5⟩
      ⟨some (.num 1), some (.num 3), "F"⟩ 0 traceCb [] neverFail
      ⟨[], []⟩).1 (by omega),
    (pageSize_validation ⟨[], some 0, some 9, some 5⟩
      ⟨some (.num 1), some (.num 3), "F"⟩ 1 traceCb [] neverFail
      ⟨[], []⟩).2 (by omega)⟩

/-! ## Store plumbing lemmas -/

theorem falsyOr_num {a : Int} (ha : a ≠ 0) (d : BlockTag) :
    falsyOr (some (.num a)) d = .num a := by
  unfold falsyOr
  split
  · rename_i h; cases h
  · rename_i h
    injection h with h
    injection h with h
    exact absurd h ha
  · rename_i o t hne heq
    injection heq with heq
    exact heq.symm

theorem toStrictFilter_num {p : Provider} {a b : Int} {fid : String}
    {d : BlockTag} (ha : a ≠ 0) (hb : b ≠ 0) :
    toStrictFilter p ⟨some (.num a), some (.num b), fid⟩ d = .ok (a, b) := by
  unfold toStrictFilter
  rw [show (⟨some (.num a), some (.num b), fid⟩ : ModelFilter).fromBlock =
    some (.num a) from rfl]
  rw [show (⟨some (.num a), some (.num b), fid⟩ : ModelFilter).toBlock =
    some (.num b) from rfl]
  rw [falsyOr_num ha, falsyOr_num hb]
  rfl

theorem tidyUpRanges_logs (st : Store) (fid : String) :
    (tidyUpRanges st fid).logs = st.logs := by
  unfold tidyUpRanges
  simp only []
  split
  · rfl
  · rfl

theorem replaceRanges_ranges (st : Store) (fid : String) (rs : List BlockRange) :
    (replaceRanges st fid rs).ranges =
      st.ranges.filter (fun r => !(r.filterId == fid)) ++
        rs.map fun r => (⟨fid, r.fromBlock, r.toBlock⟩ : RangeRow) := rfl

theorem selectRanges_replace_perm (st : Store) (fid : String)
    (rs : List BlockRange) :
    (selectRanges (replaceRanges st fid rs) fid).Perm rs := by
  unfold selectRanges
  rw [replaceRanges_ranges, List.filter_append]
  have h1 : (st.ranges.filter (fun r => !(r.filterId == fid))).filter
      (fun r => r.filterId == fid) = [] := by
    rw [List.filter_eq_nil_iff]
    intro r hr
    have := List.of_mem_filter hr
    simp only [Bool.not_eq_true'] at this
    simp [this]
  have h2 : ((rs.map fun r => (⟨fid, r.fromBlock, r.toBlock⟩ : RangeRow)).filter
      fun r => r.filterId == fid) =
      rs.map fun r => (⟨fid, r.fromBlock, r.toBlock⟩ : RangeRow) := by
    rw [List.filter_eq_self]
    intro r hr
    obtain ⟨r₀, _, hr₀⟩ := List.mem_map.1 hr
    rw [← hr₀]
    simp
  rw [h1, h2, List.nil_append]
  have hperm := List.perm_insertionSort rangeRowLe
    (rs.map fun r => (⟨fid, r.fromBlock, r.toBlock⟩ : RangeRow))
  have hmapped := hperm.map
    fun (r : RangeRow) => (⟨r.fromBlock, r.toBlock⟩ : BlockRange)
  refine hmapped.trans ?_
  rw [List.map_map]
  have hid : ((fun (r : RangeRow) => (⟨r.fromBlock, r.toBlock⟩ : BlockRange)) ∘
      fun (r : BlockRange) => (⟨fid, r.fromBlock, r.toBlock⟩ : RangeRow)) =
      id := by
    funext r
    rfl
  rw [hid, List.map_id]

theorem tidyUpRanges_coverage (st : Store) (fid : String) (n : Int) :
    coveredBy (selectRanges (tidyUpRanges st fid) fid) n ↔
      coveredBy (selectRanges st fid) n := by
  unfold tidyUpRanges
  simp only []
  split
  · rfl
  · rw [coveredBy_perm (selectRanges_replace_perm st fid
      (mergeRanges (selectRanges st fid))) n]
    exact mergeRanges_coverage (selectRanges st fid) n

/-- When `want` is valid and fully covered, `subtractRanges` is empty. -/
theorem subtractRanges_eq_nil {want : BlockRange} {hv : List BlockRange}
    (hw : want.valid) (hcov : ∀ n : Int, inRange n want → coveredBy hv n) :
    subtractRanges want hv = [] := by
  by_contra hne
  obtain ⟨r, hr⟩ := List.exists_mem_of_ne_nil _ hne
  have hrv := subtractRanges_valid want hv hw r hr
  have hcb : coveredBy (subtractRanges want hv) r.fromBlock :=
    ⟨r, hr, le_refl _, hrv⟩
  rw [subtractRanges_char] at hcb
  obtain ⟨x, hx, hnx⟩ := hcov r.fromBlock hcb.1
  exact hcb.2 x hx hnx

theorem selectLogs_congr {st st' : Store} (h : st.logs = st'.logs)
    (fid : String) (a b : Int) :
    selectLogs st fid a b = selectLogs st' fid a b := by
  unfold selectLogs
  rw [h]

/-- With the requested finalized range fully covered by the stored ranges,
`fetchLogsToCache` computes an empty missing-range list, issues no fetches,
and only tidies. -/
theorem fetchLogsToCache_covered (p : Provider) (fid : String)
    (fB tB lastFin ps : Int) (st : Store)
    (hps : 1 ≤ ps) (hfB : fB ≠ 0) (htBnz : tB ≠ 0) (hv : fB ≤ tB)
    (hfin : p.finalizedBlock = some lastFin) (htB : tB ≤ lastFin)
    (hcov : ∀ n : Int, fB ≤ n → n ≤ tB → coveredBy (selectRanges st fid) n) :
    getMissingRanges (tidyUpRanges st fid) fid ⟨fB, tB⟩ = [] ∧
    fetchLogsToCache neverFail p ⟨some (.num fB), some (.num tB), fid⟩ ps st =
      (tidyUpRanges (tidyUpRanges st fid) fid, .ok ([], [])) := by
  have hmiss : getMissingRanges (tidyUpRanges st fid) fid ⟨fB, tB⟩ = [] := by
    unfold getMissingRanges
    refine subtractRanges_eq_nil (valid_mk.2 hv) ?_
    intro n hn
    rw [inRange_mk] at hn
    rw [tidyUpRanges_coverage]
    exact hcov n hn.1 hn.2
  refine ⟨hmiss, ?_⟩
  rw [fetchLogsToCache, if_neg (by omega), toStrictFilter_num hfB htBnz]
  rw [show getFinalizedBlockNumber p = .ok lastFin from by
    rw [getFinalizedBlockNumber, hfin]]
  simp only []
  rw [if_neg (by omega)]
  rw [hmiss]
  rfl

/-- `getLogs` over a fully cached, fully finalized range: no fetches, the
result is exactly the cached read after the two tidy passes. -/
theorem getLogs_covered (p : Provider) (fid : String)
    (fB tB lastFin ps : Int) (st : Store)
    (hps : 1 ≤ ps) (hfB : 1 ≤ fB) (hv : fB ≤ tB)
    (hfin : p.finalizedBlock = some lastFin) (htB : tB ≤ lastFin)
    (hcov : ∀ n : Int, fB ≤ n → n ≤ tB → coveredBy (selectRanges st fid) n) :
    getLogs p ⟨some (.num fB), some (.num tB), fid⟩ ps st =
      .ok ((selectLogs (tidyUpRanges (tidyUpRanges st fid) fid) fid fB tB).map
          rowEvent,
        tidyUpRanges (tidyUpRanges st fid) fid, [], []) := by
  have hfBnz : fB ≠ 0 := by omega
  have htBnz : tB ≠ 0 := by omega
  rw [getLogs, hfin]
  simp only []
  rw [toStrictFilter_num hfBnz htBnz]
  simp only []
  rw [min_eq_left htB]
  rw [(fetchLogsToCache_covered p fid fB tB lastFin ps st hps hfBnz htBnz hv
    hfin htB hcov).2]
  simp only []
  rw [show readLogsFromCache p ⟨some (.num fB), some (.num tB), fid⟩
      (tidyUpRanges (tidyUpRanges st fid) fid) =
      .ok ((selectLogs (tidyUpRanges (tidyUpRanges st fid) fid) fid fB tB).map
        rowEvent) from by
    rw [readLogsFromCache, toStrictFilter_num hfBnz htBnz]]
  simp only []
  rw [if_neg (by omega)]

/-- C4: when the stored ranges already cover the requested finalized range,
`fetchLogsToCache` computes an empty missing-range list and issues zero
upstream fetches (leaving the cached records untouched), and a repeated
`getLogs` call over the same fully cached range returns exactly the same
records as the first call. -/
theorem fully_cached_no_refetch (p : Provider) (fid : String)
    (fB tB lastFin ps : Int) (st : Store)
    (hps : 1 ≤ ps) (hfB : 1 ≤ fB) (hv : fB ≤ tB) (htB : tB ≤ lastFin)
    (hfin : p.finalizedBlock = some lastFin)
    (hcov : ∀ n : Int, fB ≤ n → n ≤ tB → coveredBy (selectRanges st fid) n) :
    getMissingRanges (tidyUpRanges st fid) fid ⟨fB, tB⟩ = [] ∧
    fetchLogsToCache neverFail p ⟨some (.num fB), some (.num tB), fid⟩ ps st =
      (tidyUpRanges (tidyUpRanges st fid) fid, .ok ([], [])) ∧
    (tidyUpRanges (tidyUpRanges st fid) fid).logs = st.logs ∧
    (∃ logs st₁ cp lp,
      getLogs p ⟨some (.num fB), some (.num tB), fid⟩ ps st =
        .ok (logs, st₁, cp, lp) ∧
      ∃ st₂ cp₂ lp₂,
        getLogs p ⟨some (.num fB), some (.num tB), fid⟩ ps st₁ =
          .ok (logs, st₂, cp₂, lp₂)) := by
  have hcv := fetchLogsToCache_covered p fid fB tB lastFin ps st hps
    (by omega) (by omega) hv hfin htB hcov
  have hlogs : (tidyUpRanges (tidyUpRanges st fid) fid).logs = st.logs := by
    rw [tidyUpRanges_logs, tidyUpRanges_logs]
  refine ⟨hcv.1, hcv.2, hlogs, ?_⟩
  have h1 := getLogs_covered p fid fB tB lastFin ps st hps hfB hv hfin htB hcov
  have hcov' : ∀ n : Int, fB ≤ n → n ≤ tB →
      coveredBy (selectRanges (tidyUpRanges (tidyUpRanges st fid) fid) fid) n := by
    intro n h₁ h₂
    rw [tidyUpRanges_coverage, tidyUpRanges_coverage]
    exact hcov n h₁ h₂
  have h2 := getLogs_covered p fid fB tB lastFin ps
    (tidyUpRanges (tidyUpRanges st fid) fid) hps hfB hv hfin htB hcov'
  have hsame : selectLogs (tidyUpRanges (tidyUpRanges
      (tidyUpRanges (tidyUpRanges st fid) fid) fid) fid) fid fB tB =
      selectLogs (tidyUpRanges (tidyUpRanges st fid) fid) fid fB tB := by
    refine selectLogs_congr ?_ fid fB tB
    rw [tidyUpRanges_logs, tidyUpRanges_logs]
  refine ⟨(selectLogs (tidyUpRanges (tidyUpRanges st fid) fid) fid fB tB).map
      rowEvent,
    tidyUpRanges (tidyUpRanges st fid) fid, [], [], h1,
    tidyUpRanges (tidyUpRanges
      (tidyUpRanges (tidyUpRanges st fid) fid) fid) fid, [], [], ?_⟩
  rw [h2, hsame]

/-- Witness for C4: the range `[1, 3]` is already covered by the stored
range row `[1, 5]`; last finalized block is `5`. -/
theorem fully_cached_no_refetch_witness :
    getMissingRanges (tidyUpRanges ⟨[⟨"F", 2, 0, "d"⟩], [⟨"F", 1, 5⟩]⟩ "F") "F"
      ⟨1, 3⟩ = [] ∧
    fetchLogsToCache neverFail ⟨[], some 0, some 9, some 5⟩
      ⟨some (.num 1), some (.num 3), "F"⟩ 2
      ⟨[⟨"F", 2, 0, "d"⟩], [⟨"F", 1, 5⟩]⟩ =
      (tidyUpRanges (tidyUpRanges ⟨[⟨"F", 2, 0, "d"⟩], [⟨"F", 1, 5⟩]⟩ "F") "F",
        .ok ([], [])) ∧
    (tidyUpRanges (tidyUpRanges ⟨[⟨"F", 2, 0, "d"⟩], [⟨"F", 1, 5⟩]⟩ "F")
      "F").logs = [⟨"F", 2, 0, "d"⟩] ∧
    (∃ logs st₁ cp lp,
      getLogs ⟨[], some 0, some 9, some 5⟩ ⟨some (.num 1), some (.num 3), "F"⟩ 2
        ⟨[⟨"F", 2, 0, "d"⟩], [⟨"F", 1, 5⟩]⟩ = .ok (logs, st₁, cp, lp) ∧
      ∃ st₂ cp₂ lp₂,
        getLogs ⟨[], some 0, some 9, some 5⟩ ⟨some (.num 1), some (.num 3), "F"⟩
          2 st₁ = .ok (logs, st₂, cp₂, lp₂)) :=
  fully_cached_no_refetch ⟨[], some 0, some 9, some 5⟩ "F" 1 3 5 2
    ⟨[⟨"F", 2, 0, "d"⟩], [⟨"F", 1, 5⟩]⟩ (by omega) (by omega) (by omega)
    (by omega) (by rfl)
    (fun n h₁ h₂ => ⟨⟨1, 5⟩, by decide, by rw [inRange_mk]; omega⟩)

/-! ## The `getLogs` split -/

theorem toStrictFilter_eq_num {p : Provider} {flt : ModelFilter} {d : BlockTag}
    {a b : Int} (hf : flt.fromBlock = some (.num a))
    (ht : flt.toBlock = some (.num b)) (ha : a ≠ 0) (hb : b ≠ 0) :
    toStrictFilter p flt d = .ok (a, b) := by
  unfold toStrictFilter
  rw [hf, ht, falsyOr_num ha, falsyOr_num hb]
  rfl

/-- Subtracting from a degenerate interval can only keep it whole. -/
theorem subtractRanges_invalid {fB tB : Int} (h : tB < fB)
    (hv : List BlockRange) :
    ∀ r ∈ subtractRanges ⟨fB, tB⟩ hv, r = ⟨fB, tB⟩ := by
  unfold subtractRanges
  suffices haux : ∀ (l : List BlockRange) (z : List BlockRange),
      (∀ r ∈ z, r = ⟨fB, tB⟩) →
      ∀ r ∈ l.foldl (fun z x => z.flatMap (subOne x)) z, r = ⟨fB, tB⟩ by
    refine haux hv [⟨fB, tB⟩] ?_
    intro r hr
    rwa [List.mem_singleton] at hr
  intro l
  induction l with
  | nil => intro z hz; simpa using hz
  | cons x xs ih =>
    intro z hz
    rw [List.foldl_cons]
    refine ih _ ?_
    intro r hr
    rw [List.mem_flatMap] at hr
    obtain ⟨z₀, hz₀, hmem⟩ := hr
    have hz₀' := hz z₀ hz₀
    subst hz₀'
    rcases mem_subOne hmem with h' | ⟨h', h₁, h₂⟩ | ⟨h', h₁, h₂⟩
    · exact h'
    · exfalso
      have h₁' : fB < x.fromBlock := h₁
      have h₂' : x.fromBlock ≤ tB := h₂
      omega
    · exfalso
      have h₁' : x.toBlock < tB := h₁
      have h₂' : fB ≤ x.toBlock := h₂
      omega

/-- Every missing range of a request with bounds ≥ 1 has bounds ≥ 1 and lies
within the request. -/
theorem missing_bounds {fB tB : Int} (hfB : 1 ≤ fB) (htB : 1 ≤ tB)
    (hv : List BlockRange) :
    ∀ r ∈ subtractRanges ⟨fB, tB⟩ hv,
      1 ≤ r.fromBlock ∧ 1 ≤ r.toBlock ∧ fB ≤ r.fromBlock ∧ r.toBlock ≤ tB := by
  intro r hr
  have hb := subtractRanges_bounds ⟨fB, tB⟩ hv r hr
  have hb₁ : fB ≤ r.fromBlock := hb.1
  have hb₂ : r.toBlock ≤ tB := hb.2
  by_cases hcase : fB ≤ tB
  · have hval := subtractRanges_valid ⟨fB, tB⟩ hv (valid_mk.2 hcase) r hr
    unfold BlockRange.valid at hval
    exact ⟨by omega, by omega, hb₁, hb₂⟩
  · have hr' := subtractRanges_invalid (by omega) hv r hr
    subst hr'
    exact ⟨hfB, htB, le_refl _, le_refl _⟩

theorem commitPage_ranges (p : Provider) (fid : String) (st : Store)
    (pg : PageFetch) :
    (commitPage p fid st pg).ranges =
      st.ranges ++ [⟨fid, pg.fromBlock, pg.toBlock⟩] := rfl

theorem commitPage_logs (p : Provider) (fid : String) (st : Store)
    (pg : PageFetch) :
    (commitPage p fid st pg).logs =
      insertLogs st.logs fid (chainFilter p pg.fromBlock pg.toBlock) := rfl

theorem commitPages_ranges (p : Provider) (fid : String) :
    ∀ (pgs : List PageFetch) (st : Store),
      (commitPages p fid st pgs).ranges =
        st.ranges ++ pgs.map fun pg =>
          (⟨fid, pg.fromBlock, pg.toBlock⟩ : RangeRow) := by
  intro pgs
  induction pgs with
  | nil => intro st; simp [commitPages]
  | cons pg pgs ih =>
    intro st
    rw [commitPages, List.foldl_cons]
    rw [show List.foldl (commitPage p fid) (commitPage p fid st pg) pgs =
      commitPages p fid (commitPage p fid st pg) pgs from rfl]
    rw [ih, commitPage_ranges, List.map_cons, List.append_assoc,
      List.singleton_append]

theorem pageTxn_neverFail (fid : String) (st : Store) (batch : List Event)
    (f t : Int) :
    pageTxn neverFail fid st batch f t =
      some (applyOp (applyOp st (.insLogs fid batch)) (.insRange fid f t)) := rfl

/-- `_fetchRangeToCache` without store failures: it succeeds and commits
exactly its pages, which all lie within the range. -/
theorem fetchRangeToCache_neverFail (p : Provider) (flt : ModelFilter)
    (r : BlockRange) (ps : Int) (st : Store) (hps : 1 ≤ ps)
    (hfrom : r.fromBlock ≠ 0) (hto : r.toBlock ≠ 0) :
    ∃ pages out,
      fetchRangeToCache neverFail p flt r ps st =
        .ok (pages, commitPages p flt.fid st pages, some out) ∧
      ∀ pg ∈ pages, r.fromBlock ≤ pg.fromBlock ∧ pg.toBlock ≤ r.toBlock := by
  have htotal : ∀ (s : Store) (a b : List Event) (f t : Int),
      ((fun st _ batch f t => pageTxn neverFail flt.fid st batch f t)
        s a b f t).isSome = true := by
    intro s a b f t
    show (pageTxn neverFail flt.fid s b f t).isSome = true
    rw [pageTxn_neverFail]
    rfl
  have hout := fetchPages_out_flatten p
    (fun st _ batch f t => pageTxn neverFail flt.fid st batch f t) ps
    r.toBlock htotal r.fromBlock [] st
  obtain ⟨k, hk, hst, hkeq⟩ := fetchPages_txn_prefix neverFail p flt.fid ps
    r.toBlock r.fromBlock [] st
  have hkl : k = (fetchPages p
      (fun st _ batch f t => pageTxn neverFail flt.fid st batch f t) ps
      r.toBlock r.fromBlock [] st).1.length := by
    refine hkeq ?_
    rw [hout]
    simp
  refine ⟨(fetchPages p
      (fun st _ batch f t => pageTxn neverFail flt.fid st batch f t) ps
      r.toBlock r.fromBlock [] st).1,
    ([] ++ ((fetchPages p
      (fun st _ batch f t => pageTxn neverFail flt.fid st batch f t) ps
      r.toBlock r.fromBlock [] st).1.map
        fun pg => chainFilter p pg.fromBlock pg.toBlock).flatten), ?_, ?_⟩
  · rw [fetchRangeToCache, fetchLogs, if_neg (by omega)]
    rw [toStrictFilter_eq_num (show (rangeFilter flt r).fromBlock =
        some (.num r.fromBlock) from rfl)
      (show (rangeFilter flt r).toBlock = some (.num r.toBlock) from rfl)
      hfrom hto]
    rw [hkl, List.take_length] at hst
    rw [← hst, ← hout]
  · intro pg hpg
    have := fetchPages_mem_pages p
      (fun st _ batch f t => pageTxn neverFail flt.fid st batch f t) ps
      r.toBlock r.fromBlock [] st pg hpg
    exact ⟨this.1, this.2.1⟩

theorem mem_selectRanges {st : Store} {fid : String} {r : BlockRange}
    (h : r ∈ selectRanges st fid) :
    ∃ row ∈ st.ranges, row.filterId = fid ∧
      r.fromBlock = row.fromBlock ∧ r.toBlock = row.toBlock := by
  unfold selectRanges at h
  obtain ⟨row, hrow, hr⟩ := List.mem_map.1 h
  rw [List.mem_insertionSort] at hrow
  refine ⟨row, List.mem_of_mem_filter hrow, ?_, ?_, ?_⟩
  · have := List.of_mem_filter hrow
    simpa using this
  · rw [← hr]
  · rw [← hr]

theorem tidyUpRanges_rows_bound {st : Store} {fid : String} {B : Int}
    (h : ∀ row ∈ st.ranges, row.toBlock ≤ B) :
    ∀ row ∈ (tidyUpRanges st fid).ranges, row.toBlock ≤ B := by
  unfold tidyUpRanges
  simp only []
  split
  · exact h
  · intro row hrow
    rw [replaceRanges_ranges] at hrow
    rcases List.mem_append.1 hrow with h' | h'
    · exact h row (List.mem_of_mem_filter h')
    · obtain ⟨r₀, hr₀, hmap⟩ := List.mem_map.1 h'
      have hbound : ∀ r ∈ selectRanges st fid, r.toBlock ≤ B := by
        intro r hr
        obtain ⟨row', hrow', _, _, hto⟩ := mem_selectRanges hr
        rw [hto]
        exact h row' hrow'
      have := mergeRanges_toBlock_le (selectRanges st fid) B hbound r₀ hr₀
      rw [← hmap]
      exact this

/-- The missing-range loop without store failures: it succeeds, every
fetched page lies in its missing range, and the range rows appended are
exactly the fetched pages. -/
theorem fetchMissingRanges_ok (p : Provider) (flt : ModelFilter) (ps : Int)
    (hps : 1 ≤ ps) :
    ∀ (rs : List BlockRange) (st : Store) (acc : List PageFetch),
      (∀ r ∈ rs, r.fromBlock ≠ 0 ∧ r.toBlock ≠ 0) →
      ∃ st' pages,
        fetchMissingRanges neverFail p flt ps rs st acc =
          (st', acc ++ pages, none) ∧
        (∀ pg ∈ pages, ∃ r ∈ rs,
          r.fromBlock ≤ pg.fromBlock ∧ pg.toBlock ≤ r.toBlock) ∧
        st'.ranges = st.ranges ++ pages.map fun pg =>
          (⟨flt.fid, pg.fromBlock, pg.toBlock⟩ : RangeRow) := by
  intro rs
  induction rs with
  | nil =>
    intro st acc _
    exact ⟨st, [], by simp [fetchMissingRanges], by simp, by simp⟩
  | cons r rs ih =>
    intro st acc hnz
    obtain ⟨pages₀, out₀, hfr, hpg₀⟩ := fetchRangeToCache_neverFail p flt r ps
      st hps (hnz r (List.mem_cons_self _ _)).1 (hnz r (List.mem_cons_self _ _)).2
    obtain ⟨st', pages₁, hloop, hpg₁, hrows⟩ :=
      ih (commitPages p flt.fid st pages₀) (acc ++ pages₀)
        fun r' hr' => hnz r' (List.mem_cons_of_mem r hr')
    refine ⟨st', pages₀ ++ pages₁, ?_, ?_, ?_⟩
    · rw [fetchMissingRanges, hfr]
      simp only []
      rw [hloop, List.append_assoc]
    · intro pg hpg
      rcases List.mem_append.1 hpg with h' | h'
      · exact ⟨r, List.mem_cons_self _ _, (hpg₀ pg h').1, (hpg₀ pg h').2⟩
      · obtain ⟨r', hr', hb⟩ := hpg₁ pg h'
        exact ⟨r', List.mem_cons_of_mem r hr', hb⟩
    · rw [hrows, commitPages_ranges, List.map_append, List.append_assoc]

/-- `fetchLogsToCache` over explicit nonzero numeric bounds within finality,
without store failures: it succeeds; every fetched page lies within the
request; and the `fetched_ranges` rows stay bounded by anything that bounds
the initial rows and the request. -/
theorem fetchLogsToCache_ok (p : Provider) (flt : ModelFilter)
    (fB tB lastFin ps : Int) (st : Store)
    (hps : 1 ≤ ps) (hf : flt.fromBlock = some (.num fB))
    (ht : flt.toBlock = some (.num tB))
    (hfB : 1 ≤ fB) (htBpos : 1 ≤ tB) (htB : tB ≤ lastFin)
    (hfin : p.finalizedBlock = some lastFin) :
    ∃ st' pages,
      fetchLogsToCache neverFail p flt ps st =
        (st', .ok (pages,
          getMissingRanges (tidyUpRanges st flt.fid) flt.fid ⟨fB, tB⟩)) ∧
      (∀ pg ∈ pages, fB ≤ pg.fromBlock ∧ pg.toBlock ≤ tB) ∧
      (∀ B : Int, tB ≤ B → (∀ row ∈ st.ranges, row.toBlock ≤ B) →
        ∀ row ∈ st'.ranges, row.toBlock ≤ B) := by
  have hmz := missing_bounds hfB htBpos (selectRanges (tidyUpRanges st flt.fid)
    flt.fid)
  obtain ⟨st₂, pages, hloop, hpg, hrows⟩ := fetchMissingRanges_ok p flt ps hps
    (getMissingRanges (tidyUpRanges st flt.fid) flt.fid ⟨fB, tB⟩)
    (tidyUpRanges st flt.fid) []
    (fun r hr => ⟨by have := (hmz r hr).1; omega,
      by have := (hmz r hr).2.1; omega⟩)
  refine ⟨tidyUpRanges st₂ flt.fid, pages, ?_, ?_, ?_⟩
  · rw [fetchLogsToCache, if_neg (by omega),
      toStrictFilter_eq_num hf ht (by omega) (by omega)]
    rw [show getFinalizedBlockNumber p = .ok lastFin from by
      rw [getFinalizedBlockNumber, hfin]]
    simp only []
    rw [if_neg (by omega)]
    rw [hloop]
    simp only [List.nil_append]
  · intro pg hpg'
    obtain ⟨r, hr, hb⟩ := hpg pg hpg'
    have h₁ := (hmz r hr).2.2.1
    have h₂ := (hmz r hr).2.2.2
    exact ⟨by omega, by omega⟩
  · intro B hB hinit row hrow
    refine tidyUpRanges_rows_bound ?_ row hrow
    rw [hrows]
    intro row' hrow'
    rcases List.mem_append.1 hrow' with h' | h'
    · exact tidyUpRanges_rows_bound hinit row' h'
    · obtain ⟨pg, hpgm, hmap⟩ := List.mem_map.1 h'
      obtain ⟨r, hr, hb⟩ := hpg pg hpgm
      have h₂ := (hmz r hr).2.2.2
      rw [← hmap]
      show pg.toBlock ≤ B
      omega

theorem selectLogs_sorted (st : Store) (fid : String) (a b : Int) :
    (selectLogs st fid a b).Pairwise logRowLe :=
  List.sorted_insertionSort logRowLe _

theorem mem_selectLogs {st : Store} {fid : String} {a b : Int} {row : LogRow}
    (h : row ∈ selectLogs st fid a b) :
    a ≤ row.blockNumber ∧ row.blockNumber ≤ b := by
  unfold selectLogs at h
  rw [List.mem_insertionSort] at h
  have hp := List.of_mem_filter h
  simp only [Bool.and_eq_true, beq_iff_eq, decide_eq_true_eq] at hp
  exact ⟨hp.1.2, hp.2⟩

theorem readLogsFromCache_num (p : Provider) (flt : ModelFilter) (st : Store)
    {a b : Int} (hf : flt.fromBlock = some (.num a))
    (ht : flt.toBlock = some (.num b)) (ha : a ≠ 0) (hb : b ≠ 0) :
    readLogsFromCache p flt st =
      .ok ((selectLogs st flt.fid a b).map rowEvent) := by
  rw [readLogsFromCache, toStrictFilter_eq_num hf ht ha hb]

/-- The concatenation of a cached read bounded by `lastFin` and the live
chain events above `lastFin` is in (block, index) order. -/
theorem split_result_ordered (p : Provider) (st : Store) (fid : String)
    (fB lastFin toB : Int) (hsort : chainOrdered p) :
    ((selectLogs st fid fB lastFin).map rowEvent ++
      chainFilter p (lastFin + 1) toB).Pairwise eventLe := by
  rw [List.pairwise_append]
  refine ⟨?_, ?_, ?_⟩
  · rw [List.pairwise_map]
    refine (selectLogs_sorted st fid fB lastFin).imp ?_
    intro a b h
    exact h
  · exact List.Pairwise.sublist (List.filter_sublist _) hsort
  · intro e₁ h₁ e₂ h₂
    obtain ⟨row, hrow, hre⟩ := List.mem_map.1 h₁
    have hb₁ := (mem_selectLogs hrow).2
    have hb₂ := List.of_mem_filter h₂
    simp only [Bool.and_eq_true, decide_eq_true_eq] at hb₂
    unfold eventLe
    rw [← hre]
    have : (rowEvent row).blockNumber = row.blockNumber := rfl
    omega

/-- C1 (amended): for a request whose resolved `toBlock` exceeds the last
finalized block — with `fromBlock` and the finalized height at least 1, so
that no block bound hits the falsy-zero re-resolution — `getLogs` serves
the finalized sub-range `[fromBlock, lastFinalized]` through the cache
(fetch-to-cache, then read back), fetches `[lastFinalized + 1, toBlock]`
live without caching (every cache-path page and every final range row stays
at or below `lastFinalized`), and returns the cached finalized records
followed by the live records, in (block, index) order.  Note the live fetch
starts at `lastFinalized + 1` even when `fromBlock` is higher. -/
theorem getLogs_split (p : Provider) (flt : ModelFilter)
    (ps fromB toB lastFin : Int) (st : Store)
    (hps : 1 ≤ ps)
    (hres : toStrictFilter p flt .latest = .ok (fromB, toB))
    (hfin : p.finalizedBlock = some lastFin)
    (hfromB : 1 ≤ fromB) (hlastFin : 1 ≤ lastFin) (htoB : lastFin < toB)
    (hsort : chainOrdered p)
    (hrows : ∀ row ∈ st.ranges, row.toBlock ≤ lastFin) :
    ∃ st' cachePages livePages,
      getLogs p flt ps st =
        .ok ((selectLogs st' flt.fid fromB lastFin).map rowEvent ++
          chainFilter p (lastFin + 1) toB, st', cachePages, livePages) ∧
      (∀ pg ∈ livePages, lastFin + 1 ≤ pg.fromBlock ∧ pg.toBlock ≤ toB) ∧
      (∀ n : Int, lastFin + 1 ≤ n → n ≤ toB →
        ∃ pg ∈ livePages, pg.fromBlock ≤ n ∧ n ≤ pg.toBlock) ∧
      (∀ pg ∈ cachePages, fromB ≤ pg.fromBlock ∧ pg.toBlock ≤ lastFin) ∧
      (∀ row ∈ st'.ranges, row.toBlock ≤ lastFin) ∧
      ((selectLogs st' flt.fid fromB lastFin).map rowEvent ++
        chainFilter p (lastFin + 1) toB).Pairwise eventLe := by
  obtain ⟨st', pages, heq, hpg, hbound⟩ := fetchLogsToCache_ok p
    { flt with
        fromBlock := some (.num fromB)
        toBlock := some (.num lastFin) }
    fromB lastFin lastFin ps st hps rfl rfl hfromB hlastFin (le_refl _) hfin
  have hcbU : ∀ (s : Unit) (a b : List Event) (f t : Int),
      ((fun (s : Unit) (_ _ : List Event) (_ _ : Int) => some s)
        s a b f t).isSome = true := by
    intro s a b f t
    rfl
  have hout := fetchPages_out p
    (fun (s : Unit) (_ _ : List Event) (_ _ : Int) => some s) ps toB hps hsort
    hcbU (lastFin + 1) [] ()
  have hlive : fetchLogs p
      { flt with
          fromBlock := some (.num (lastFin + 1))
          toBlock := some (.num toB) } ps
      (fun (s : Unit) (_ _ : List Event) (_ _ : Int) => some s) () =
      .ok ((fetchPages p
          (fun (s : Unit) (_ _ : List Event) (_ _ : Int) => some s) ps toB
          (lastFin + 1) [] ()).1,
        (fetchPages p
          (fun (s : Unit) (_ _ : List Event) (_ _ : Int) => some s) ps toB
          (lastFin + 1) [] ()).2.1,
        some ([] ++ chainFilter p (lastFin + 1) toB)) := by
    rw [fetchLogs, if_neg (by omega),
      toStrictFilter_eq_num rfl rfl (by omega) (by omega)]
    rw [← hout]
  refine ⟨st', pages,
    (fetchPages p (fun (s : Unit) (_ _ : List Event) (_ _ : Int) => some s)
      ps toB (lastFin + 1) [] ()).1, ?_, ?_, ?_, hpg, ?_, ?_⟩
  · rw [getLogs, hfin]
    simp only []
    rw [hres]
    simp only []
    rw [min_eq_right (le_of_lt htoB)]
    rw [heq]
    simp only []
    rw [readLogsFromCache_num p _ st' rfl rfl (by omega) (by omega)]
    simp only []
    rw [if_pos (show toB > lastFin from htoB)]
    rw [hlive]
    simp only [List.nil_append]
  · intro pg hpg'
    have := fetchPages_mem_pages p
      (fun (s : Unit) (_ _ : List Event) (_ _ : Int) => some s) ps toB
      (lastFin + 1) [] () pg hpg'
    exact ⟨this.1, this.2.1⟩
  · intro n h₁ h₂
    exact fetchPages_cover p
      (fun (s : Unit) (_ _ : List Event) (_ _ : Int) => some s) ps toB hps
      hcbU (lastFin + 1) [] () n h₁ h₂
  · exact hbound lastFin (le_refl _) hrows
  · exact split_result_ordered p st' flt.fid fromB lastFin toB hsort

/-- C1: counterexample to the original claim that the live path fetches
exactly the remainder of the requested range above the last finalized
block.  With `fromBlock = 3`, `toBlock = 4` and last finalized block 1, the
live fetch issues the page `[2, 4]` — starting at `lastFinalized + 1 = 2`,
below the requested `fromBlock` — and the result contains the chain record
at block 2, outside the requested range `[3, 4]`. -/
theorem getLogs_overreach_cex :
    getLogs ⟨[⟨2, 0, "e2"⟩], some 0, some 5, some 1⟩
        ⟨some (.num 3), some (.num 4), "F"⟩ 10 ⟨[], []⟩ =
      .ok ([⟨2, 0, "e2"⟩], ⟨[], []⟩, [], [⟨2, 4⟩]) ∧
    ¬ (∀ pg ∈ ([⟨2, 4⟩] : List PageFetch), (3 : Int) ≤ pg.fromBlock) ∧
    ¬ (∀ e ∈ ([⟨2, 0, "e2"⟩] : List Event), (3 : Int) ≤ e.blockNumber) :=
  ⟨rfl, by decide, by decide⟩

theorem getLogs_split_witness :
    ∃ st' cachePages livePages,
      getLogs ⟨[⟨2, 0, "a"⟩, ⟨4, 1, "b"⟩], some 0, some 5, some 3⟩
          ⟨some (.num 1), some (.num 4), "F"⟩ 2 ⟨[], []⟩ =
        .ok ((selectLogs st'
            (ModelFilter.fid ⟨some (.num 1), some (.num 4), "F"⟩) 1 3).map
              rowEvent ++
          chainFilter ⟨[⟨2, 0, "a"⟩, ⟨4, 1, "b"⟩], some 0, some 5, some 3⟩
            (3 + 1) 4, st', cachePages, livePages) ∧
      (∀ pg ∈ livePages, 3 + 1 ≤ pg.fromBlock ∧ pg.toBlock ≤ 4) ∧
      (∀ n : Int, 3 + 1 ≤ n → n ≤ 4 →
        ∃ pg ∈ livePages, pg.fromBlock ≤ n ∧ n ≤ pg.toBlock) ∧
      (∀ pg ∈ cachePages, 1 ≤ pg.fromBlock ∧ pg.toBlock ≤ 3) ∧
      (∀ row ∈ st'.ranges, row.toBlock ≤ 3) ∧
      ((selectLogs st'
          (ModelFilter.fid ⟨some (.num 1), some (.num 4), "F"⟩) 1 3).map
            rowEvent ++
        chainFilter ⟨[⟨2, 0, "a"⟩, ⟨4, 1, "b"⟩], some 0, some 5, some 3⟩
          (3 + 1) 4).Pairwise eventLe :=
  getLogs_split ⟨[⟨2, 0, "a"⟩, ⟨4, 1, "b"⟩], some 0, some 5, some 3⟩
    ⟨some (.num 1), some (.num 4), "F"⟩ 2 1 4 3 ⟨[], []⟩
    (by omega) rfl rfl (by omega) (by omega) (by omega)
    (by decide) (by decide)
